import Mathlib

/-!
Verification of the DocDB key codec and the MVCC coordinator of a tablet
storage engine.  The development shallowly embeds the two subsystems:

* the order-preserving DocKey / SubDocKey byte codec (type-tagged primitive
  values, hashed and range component groups, optional terminating timestamp,
  prefix operations, and the bloom-filter DocKey-prefix policy), and
* the MVCC snapshot / manager (visibility predicate, in-flight transaction
  map, safe-time watermark and its adjustment).

Bytes are modelled as natural numbers below 256 in lists; 64-bit and 32-bit
machine integers are modelled as naturals (with explicit bounds) or integers
with an explicit bias, and fallible decoding returns Option.
-/

namespace YbDocDb

/-- Three-way comparison on naturals, the model of unsigned integer and
byte comparison. -/
def natCmp (a b : Nat) : Ordering :=
  if a < b then .lt else if a = b then .eq else .gt

/-- Three-way comparison on integers, the model of signed 64-bit
comparison. -/
def intCmp (a b : Int) : Ordering :=
  if a < b then .lt else if a = b then .eq else .gt

/-- Three-way comparison on booleans (false sorts before true). -/
def cmpBool : Bool → Bool → Ordering
  | false, false => .eq
  | false, true => .lt
  | true, false => .gt
  | true, true => .eq

/-- Lexicographic three-way comparison of byte strings, the model of
memcmp-style comparison of RocksDB keys (shorter strings sort first on a
tie). -/
def cmpBytes : List Nat → List Nat → Ordering
  | [], [] => .eq
  | [], _ :: _ => .lt
  | _ :: _, [] => .gt
  | a :: as, b :: bs => (natCmp a b).then (cmpBytes as bs)

/-- Big-endian encoding of a natural number into a fixed number of bytes. -/
def toBE : Nat → Nat → List Nat
  | 0, _ => []
  | k + 1, n => (n / 256 ^ k) :: toBE k (n % 256 ^ k)

/-- Big-endian decoding of a fixed number of bytes from the front of a byte
string, returning the value and the remaining bytes. -/
def readBE : Nat → List Nat → Option (Nat × List Nat)
  | 0, l => some (0, l)
  | _ + 1, [] => none
  | k + 1, c :: rest => (readBE k rest).map (fun p => (c * 256 ^ k + p.1, p.2))

/-- Modelled from the spec: the closed set of value-type tag bytes of the key
encoding (the primitive_value implementation is absent from the sources).
Concrete numeric assignments follow the spec's ordering table
GroupEnd < Null < False < True < Int64 < Double < String < Timestamp <
Uint32Hash. -/
def kGroupEnd : Nat := 33

def kNull : Nat := 36

def kFalse : Nat := 37

def kTrue : Nat := 38

def kInt64 : Nat := 50

def kDouble : Nat := 60

def kString : Nat := 70

def kTimestamp : Nat := 80

def kUInt32Hash : Nat := 90

/-- Modelled from the spec: the byte appended by AdvanceOutOfSubDoc, higher
than any ValueType byte. -/
def kMaxByte : Nat := 255

/-- Modelled from the spec: the reserved sentinel timestamp values.  kMax is
the largest assignable timestamp and the placeholder for batched writes;
kInvalid denotes an absent timestamp and is never encoded. -/
def kTimestampMax : Nat := 2 ^ 64 - 2

def kInvalidTimestamp : Nat := 2 ^ 64 - 1

/-- Modelled from the spec: a typed primitive atom of the key codec
(PrimitiveValue; the primitive_value implementation is absent from the
sources).  Doubles carry their 64-bit representation; strings carry their
UTF-8 bytes; timestamps carry the raw 64-bit timestamp value. -/
inductive PrimitiveValue where
  | vnull : PrimitiveValue
  | vfalse : PrimitiveValue
  | vtrue : PrimitiveValue
  | int64 (v : Int) : PrimitiveValue
  | double (bits : Nat) : PrimitiveValue
  | str (s : List Nat) : PrimitiveValue
  | timestamp (t : Nat) : PrimitiveValue
deriving DecidableEq

/-- The machine-level bounds a C++ PrimitiveValue satisfies by construction:
64-bit payloads, byte-valued string contents, and a presentable
(non-sentinel) timestamp. -/
def PrimitiveValue.validB : PrimitiveValue → Bool
  | .vnull => true
  | .vfalse => true
  | .vtrue => true
  | .int64 v => decide (-(2 : Int) ^ 63 ≤ v) && decide (v < 2 ^ 63)
  | .double b => decide (b < 2 ^ 64)
  | .str s => s.all (fun c => decide (c < 256))
  | .timestamp t => decide (t < 2 ^ 64 - 1)

/-- The type tag byte of a primitive value. -/
def PrimitiveValue.typeByte : PrimitiveValue → Nat
  | .vnull => kNull
  | .vfalse => kFalse
  | .vtrue => kTrue
  | .int64 _ => kInt64
  | .double _ => kDouble
  | .str _ => kString
  | .timestamp _ => kTimestamp

/-- Modelled from the spec: zero-escaping of string payloads — every 0x00
becomes 0x00 0x01 (the terminator 0x00 0x00 is appended by the caller). -/
def escapeZeros : List Nat → List Nat
  | [] => []
  | c :: rest => if c = 0 then 0 :: 1 :: escapeZeros rest else c :: escapeZeros rest

/-- Modelled from the spec: inverse of zero-escaping — consume bytes up to
and including the 0x00 0x00 terminator, rejecting any other escape after
0x00. -/
def unescapeZeros : List Nat → Option (List Nat × List Nat)
  | [] => none
  | [_] => none
  | c1 :: c2 :: rest =>
    if c1 = 0 then
      if c2 = 0 then some ([], rest)
      else if c2 = 1 then (unescapeZeros rest).map (fun p => (0 :: p.1, p.2))
      else none
    else
      (unescapeZeros (c2 :: rest)).map (fun p => (c1 :: p.1, p.2))

/-- Modelled from the spec: the order-preserving transformation of a double's
64-bit representation (negatives: flip all bits; non-negatives: flip the
sign bit). -/
def doubleKeyBits (b : Nat) : Nat :=
  if b < 2 ^ 63 then b + 2 ^ 63 else 2 ^ 64 - 1 - b

/-- Inverse of the double bit transformation. -/
def doubleFromKeyBits (t : Nat) : Nat :=
  if t < 2 ^ 63 then 2 ^ 64 - 1 - t else t - 2 ^ 63

/-- Modelled from the spec: the order-preserving key encoding of a primitive
value — type byte, then fixed-width big-endian payload with the sign bit
flipped (integers), the double bit transformation, zero-escaped
null-terminated bytes (strings), or the one's complement (descending)
timestamp. -/
def PrimitiveValue.encode : PrimitiveValue → List Nat
  | .vnull => [kNull]
  | .vfalse => [kFalse]
  | .vtrue => [kTrue]
  | .int64 v => kInt64 :: toBE 8 (v + 2 ^ 63).toNat
  | .double b => kDouble :: toBE 8 (doubleKeyBits b)
  | .str s => kString :: (escapeZeros s ++ [0, 0])
  | .timestamp t => kTimestamp :: toBE 8 (2 ^ 64 - 1 - t)

/-- Modelled from the spec: decoding of one primitive value from the front
of a key, returning the remaining bytes, with Corruption modelled as
none. -/
def decodePrimitiveValue (l : List Nat) : Option (PrimitiveValue × List Nat) :=
  match l with
  | [] => none
  | c :: rest =>
    if c = kNull then some (.vnull, rest)
    else if c = kFalse then some (.vfalse, rest)
    else if c = kTrue then some (.vtrue, rest)
    else if c = kInt64 then
      (readBE 8 rest).map (fun p => (.int64 ((p.1 : Int) - 2 ^ 63), p.2))
    else if c = kDouble then
      (readBE 8 rest).map (fun p => (.double (doubleFromKeyBits p.1), p.2))
    else if c = kString then
      (unescapeZeros rest).map (fun p => (.str p.1, p.2))
    else if c = kTimestamp then
      (readBE 8 rest).map (fun p => (.timestamp (2 ^ 64 - 1 - p.1), p.2))
    else none

/-- The structural comparison of the payloads of two primitive values of the
same type, in the typed order chosen by the system: natural order for
integers and strings, the bit-transformed order for doubles, and the
reversed (newest-first) order for timestamps. -/
def primPayloadCmp : PrimitiveValue → PrimitiveValue → Ordering
  | .int64 a, .int64 b => intCmp a b
  | .double a, .double b => natCmp (doubleKeyBits a) (doubleKeyBits b)
  | .str a, .str b => cmpBytes a b
  | .timestamp a, .timestamp b => natCmp b a
  | _, _ => .eq

/-- Modelled from the spec: structural comparison of primitive values —
types are ordered by their tag byte, payloads by the typed order. -/
def PrimitiveValue.CompareTo (a b : PrimitiveValue) : Ordering :=
  (natCmp a.typeByte b.typeByte).then (primPayloadCmp a b)

/-- Concatenated key encoding of a sequence of primitive values (no
terminator). -/
def encodePVList : List PrimitiveValue → List Nat
  | [] => []
  | v :: g => v.encode ++ encodePVList g

/-- Key encoding of a component group: the components in order, terminated
by the GroupEnd byte. -/
def encodeGroup (g : List PrimitiveValue) : List Nat :=
  encodePVList g ++ [kGroupEnd]

/-- Structural lexicographic comparison of primitive value sequences (a
proper prefix sorts first). -/
def cmpPVList : List PrimitiveValue → List PrimitiveValue → Ordering
  | [], [] => .eq
  | [], _ :: _ => .lt
  | _ :: _, [] => .gt
  | a :: as, b :: bs => (a.CompareTo b).then (cmpPVList as bs)

/-- Modelled from the spec: ConsumePrimitiveValuesFromKey — consume encoded
primitive values until the GroupEnd byte, which is also consumed.  The fuel
argument bounds the recursion; every iteration consumes at least one byte,
so the wrapper's fuel of length + 1 never runs out. -/
def consumeGroupFuel : Nat → List Nat → Option (List PrimitiveValue × List Nat)
  | 0, _ => none
  | _ + 1, [] => none
  | fuel + 1, c :: rest =>
    if c = kGroupEnd then some ([], rest)
    else
      (decodePrimitiveValue (c :: rest)).bind fun p =>
        (consumeGroupFuel fuel p.2).map fun q => (p.1 :: q.1, q.2)

/-- Modelled from the spec: consume one GroupEnd-terminated group of
primitive values from the front of a key. -/
def ConsumePrimitiveValuesFromKey (l : List Nat) :
    Option (List PrimitiveValue × List Nat) :=
  consumeGroupFuel (l.length + 1) l

/-- A key that locates a document: an optional 32-bit hash prefix with its
hashed component group, and a range component group (doc_key.h).  When
hash_present is false the hash is zero and the hashed group is empty. -/
structure DocKey where
  hash_present : Bool
  hash : Nat
  hashed_group : List PrimitiveValue
  range_group : List PrimitiveValue
deriving DecidableEq

/-- The representation invariants a C++ DocKey satisfies by construction:
the hash is 32-bit, absent hash means zero hash and empty hashed group, and
all components satisfy their own bounds. -/
def DocKey.validB (d : DocKey) : Bool :=
  (d.hash_present || (decide (d.hash = 0) && decide (d.hashed_group = [])))
    && decide (d.hash < 2 ^ 32)
    && d.hashed_group.all PrimitiveValue.validB
    && d.range_group.all PrimitiveValue.validB

/-- Modelled from the spec: DocKey::Encode — optional Uint32Hash byte,
4-byte big-endian hash and GroupEnd-terminated hashed group, then the
GroupEnd-terminated range group. -/
def DocKey.Encode (d : DocKey) : List Nat :=
  (if d.hash_present then kUInt32Hash :: (toBE 4 d.hash ++ encodeGroup d.hashed_group)
   else [])
    ++ encodeGroup d.range_group

/-- Modelled from the spec: DocKey::DecodeFrom — the Uint32Hash byte selects
the hashed-group form; any consumed bytes are removed and the remainder is
returned. -/
def DocKey.DecodeFrom (l : List Nat) : Option (DocKey × List Nat) :=
  match l with
  | [] => none
  | c :: rest =>
    if c = kUInt32Hash then
      (readBE 4 rest).bind fun p =>
        (ConsumePrimitiveValuesFromKey p.2).bind fun q =>
          (ConsumePrimitiveValuesFromKey q.2).map fun r =>
            (⟨true, p.1, q.1, r.1⟩, r.2)
    else
      (ConsumePrimitiveValuesFromKey (c :: rest)).map fun q => (⟨false, 0, [], q.1⟩, q.2)

/-- Modelled from the spec: DocKey::FullyDecodeFrom — decode and fail
(Corruption, modelled as none) if any bytes remain. -/
def DocKey.FullyDecodeFrom (l : List Nat) : Option DocKey :=
  (DocKey.DecodeFrom l).bind fun p => if p.2 = [] then some p.1 else none

/-- Modelled from the spec: DocKey::CompareTo.  The spec defines comparison
as the byte-wise comparison of the canonical encodings and permits a
structural implementation agreeing with it; this is the structural form
(hash presence, hash value, hashed group, range group). -/
def DocKey.CompareTo (a b : DocKey) : Ordering :=
  (cmpBool a.hash_present b.hash_present).then
    ((natCmp a.hash b.hash).then
      ((cmpPVList a.hashed_group b.hashed_group).then
        (cmpPVList a.range_group b.range_group)))

/-- A key pointing to a subdocument: a DocKey, a path of subkeys, and an
optional timestamp (absent modelled as none rather than the
kInvalidTimestamp sentinel). -/
structure SubDocKey where
  doc_key : DocKey
  subkeys : List PrimitiveValue
  timestamp : Option Nat
deriving DecidableEq

def SubDocKey.has_timestamp (s : SubDocKey) : Bool :=
  s.timestamp.isSome

/-- The machine-level bounds a C++ SubDocKey satisfies by construction. -/
def SubDocKey.validB (s : SubDocKey) : Bool :=
  s.doc_key.validB && s.subkeys.all PrimitiveValue.validB
    && (match s.timestamp with
        | some t => decide (t < 2 ^ 64 - 1)
        | none => true)

/-- Whether no subkey is a timestamp-typed primitive value.  In the encoded
form the subkey sequence has no terminator: its boundary is the Timestamp
type byte or the end of the key, so a timestamp-typed subkey is
indistinguishable from the terminating timestamp. -/
def SubDocKey.noTimestampSubkeys (s : SubDocKey) : Bool :=
  s.subkeys.all fun v =>
    match v with
    | .timestamp _ => false
    | _ => true

/-- Encoding of the optional terminating timestamp: the Timestamp type byte
followed by the big-endian one's complement of the value, or nothing. -/
def encodeTimestampPart : Option Nat → List Nat
  | some t => kTimestamp :: toBE 8 (2 ^ 64 - 1 - t)
  | none => []

/-- Modelled from the spec: SubDocKey::Encode — the DocKey encoding, the
subkeys in order with no group terminator, then (optionally) the
terminating timestamp. -/
def SubDocKey.Encode (s : SubDocKey) (include_timestamp : Bool) : List Nat :=
  s.doc_key.Encode ++ encodePVList s.subkeys
    ++ (if include_timestamp then encodeTimestampPart s.timestamp else [])

/-- Modelled from the spec: the subkey-and-timestamp tail of SubDocKey
decoding — consume subkeys until the Timestamp type byte (then an 8-byte
timestamp) or the end of the input; with require_timestamp set, an input
ending without a timestamp is rejected.  Fuel as in consumeGroupFuel. -/
def decodeSubKeysFuel :
    Nat → Bool → List Nat → Option (List PrimitiveValue × Option Nat × List Nat)
  | 0, _, _ => none
  | _ + 1, require_timestamp, [] =>
    if require_timestamp then none else some ([], none, [])
  | fuel + 1, require_timestamp, c :: rest =>
    if c = kTimestamp then
      (readBE 8 rest).map fun p => ([], some (2 ^ 64 - 1 - p.1), p.2)
    else
      (decodePrimitiveValue (c :: rest)).bind fun p =>
        (decodeSubKeysFuel fuel require_timestamp p.2).map fun q => (p.1 :: q.1, q.2)

def decodeSubKeys (require_timestamp : Bool) (l : List Nat) :
    Option (List PrimitiveValue × Option Nat × List Nat) :=
  decodeSubKeysFuel (l.length + 1) require_timestamp l

/-- Modelled from the spec: SubDocKey::FullyDecodeFrom — decode the DocKey,
the subkeys and (depending on require_timestamp) the terminating timestamp,
requiring the entire input to be consumed. -/
def SubDocKey.FullyDecodeFrom (l : List Nat) (require_timestamp : Bool) :
    Option SubDocKey :=
  (DocKey.DecodeFrom l).bind fun p =>
    (decodeSubKeys require_timestamp p.2).bind fun q =>
      if q.2.2 = [] then some ⟨p.1, q.1, q.2.1⟩ else none

/-- Modelled from the spec: SubDocKey::CompareTo is defined as the byte-wise
comparison of the canonical encodings (timestamp included). -/
def SubDocKey.CompareTo (a b : SubDocKey) : Ordering :=
  cmpBytes (a.Encode true) (b.Encode true)

/-- Modelled from the spec: SubDocKey::AdvanceOutOfSubDoc — the encoding
without the timestamp, with a byte higher than any ValueType appended. -/
def SubDocKey.AdvanceOutOfSubDoc (s : SubDocKey) : List Nat :=
  s.Encode false ++ [kMaxByte]

/-- Modelled from the spec: DocDbAwareFilterPolicy::GetEncodedDocKeyPrefixSize
— scan the encoded SubDocKey and return the byte length of the embedded
DocKey encoding (up to and including the range group's GroupEnd). -/
def DocDbAwareFilterPolicy.GetEncodedDocKeyPrefixSize (l : List Nat) : Option Nat :=
  (DocKey.DecodeFrom l).map fun p => l.length - p.2.length

/-- The DocKey byte prefix of an encoded SubDocKey, as truncated by the
filter policy. -/
def docKeyPrefix (l : List Nat) : List Nat :=
  match DocDbAwareFilterPolicy.GetEncodedDocKeyPrefixSize l with
  | some n => l.take n
  | none => l

/-- Modelled from the spec: DocDbAwareFilterPolicy::KeyMayMatch — truncate
the key to its DocKey prefix, then delegate to the built-in bloom filter
(abstracted as a function argument). -/
def DocDbAwareFilterPolicy.KeyMayMatch
    (builtinKeyMayMatch : List Nat → List Nat → Bool)
    (key filter : List Nat) : Bool :=
  builtinKeyMayMatch (docKeyPrefix key) filter

/-- Modelled from the spec: DocDbAwareFilterPolicy::CreateFilter — truncate
every key to its DocKey prefix, then delegate to the built-in bloom filter
(abstracted as a function argument). -/
def DocDbAwareFilterPolicy.CreateFilter
    (builtinCreateFilter : List (List Nat) → List Nat)
    (keys : List (List Nat)) : List Nat :=
  builtinCreateFilter (keys.map docKeyPrefix)

/-- A snapshot of the MVCC state (mvcc.h): every timestamp below
all_committed_before is committed, no timestamp at or after
none_committed_at_or_after is committed, and committed_timestamps lists the
committed timestamps in between. -/
structure MvccSnapshot where
  all_committed_before : Nat
  none_committed_at_or_after : Nat
  committed_timestamps : List Nat
deriving DecidableEq

/-- The snapshot invariant: every extra committed timestamp lies in
[all_committed_before, none_committed_at_or_after). -/
def MvccSnapshot.invariant (s : MvccSnapshot) : Prop :=
  ∀ t ∈ s.committed_timestamps,
    s.all_committed_before ≤ t ∧ t < s.none_committed_at_or_after

/-- Modelled from the spec: MvccSnapshot::IsCommittedFallback — membership
in committed_timestamps (the summary rule documented in mvcc.h; the
out-of-line implementation is absent from the sources). -/
def MvccSnapshot.IsCommittedFallback (s : MvccSnapshot) (t : Nat) : Bool :=
  s.committed_timestamps.contains t

/-- MvccSnapshot::IsCommitted, from mvcc.h: the inlined watermark fast
paths, falling back to the committed-timestamp set. -/
def MvccSnapshot.IsCommitted (s : MvccSnapshot) (t : Nat) : Bool :=
  if t < s.all_committed_before then true
  else if s.none_committed_at_or_after ≤ t then false
  else s.IsCommittedFallback t

/-- MvccSnapshot::is_clean, from mvcc.h: the committed-timestamp set is
empty. -/
def MvccSnapshot.is_clean (s : MvccSnapshot) : Bool :=
  s.committed_timestamps.isEmpty

/-- MvccSnapshot::LastCommittedTimestamp, from mvcc.h: a degenerate dirty
snapshot consisting of exactly the watermark returns the watermark;
otherwise the watermark minus one in unsigned 64-bit arithmetic. -/
def MvccSnapshot.LastCommittedTimestamp (s : MvccSnapshot) : Nat :=
  if s.is_clean = false ∧ s.committed_timestamps.length = 1
      ∧ s.committed_timestamps.head? = some s.all_committed_before then
    s.all_committed_before
  else
    (s.all_committed_before + (2 ^ 64 - 1)) % 2 ^ 64

/-- Modelled from the spec: MvccSnapshot::AddCommittedTimestamp — record an
extra committed timestamp unless already committed, raising
none_committed_at_or_after to at least its successor. -/
def MvccSnapshot.AddCommittedTimestamp (s : MvccSnapshot) (t : Nat) : MvccSnapshot :=
  if s.IsCommitted t then s
  else
    { s with
      committed_timestamps := t :: s.committed_timestamps
      none_committed_at_or_after := max s.none_committed_at_or_after (t + 1) }

/-- The state of an in-flight transaction (mvcc.h). -/
inductive TxnState where
  | reserved : TxnState
  | applying : TxnState
deriving DecidableEq

/-- Modelled from the spec: the MvccManager's mutable state — the current
snapshot, the in-flight timestamp map, and the no-new-transactions
watermark.  The cached earliest in-flight timestamp of the C++ class is kept
derived (earliestInFlight) rather than stored. -/
structure MvccManagerState where
  cur_snap : MvccSnapshot
  timestamps_in_flight : List (Nat × TxnState)
  no_new_transactions_at_or_before : Nat
deriving DecidableEq

/-- The minimum in-flight timestamp, or Timestamp::kMax when the set is
empty (mvcc.h). -/
def earliestInFlight (st : MvccManagerState) : Nat :=
  st.timestamps_in_flight.foldr (fun p m => min p.1 m) kTimestampMax

/-- Remove a timestamp from the in-flight map. -/
def removeInFlight (st : MvccManagerState) (t : Nat) : List (Nat × TxnState) :=
  st.timestamps_in_flight.filter fun p => decide (p.1 ≠ t)

/-- The outcome of a manager operation: success (with the returned timestamp
for StartTransaction), a recoverable IllegalState error, or a fatal
programming error (LOG(FATAL) / CHECK failure in the C++). -/
inductive MvccResult where
  | ok (t : Option Nat) : MvccResult
  | illegal : MvccResult
  | fatal : MvccResult
deriving DecidableEq

/-- Modelled from the spec: MvccManager::AdjustCleanTime — the new clean
time is the smaller of the earliest in-flight timestamp and the successor of
the no-new-transactions watermark; when it advances, redundant entries below
it leave the committed set and the snapshot watermarks are recomputed. -/
def MvccManagerState.AdjustCleanTime (st : MvccManagerState) : MvccManagerState :=
  let new_clean := min (earliestInFlight st) (st.no_new_transactions_at_or_before + 1)
  if st.cur_snap.all_committed_before < new_clean then
    let remaining := st.cur_snap.committed_timestamps.filter fun t => decide (new_clean ≤ t)
    { st with
      cur_snap :=
        { all_committed_before := new_clean
          committed_timestamps := remaining
          none_committed_at_or_after := remaining.foldr (fun t m => max (t + 1) m) new_clean } }
  else st

/-- Modelled from the spec: MvccManager::InitTransactionUnlocked — reject a
timestamp at or below the no-new-transactions watermark, already in flight,
or already committed; otherwise insert it as RESERVED. -/
def initTransaction (st : MvccManagerState) (t : Nat) : Option MvccManagerState :=
  if t ≤ st.no_new_transactions_at_or_before then none
  else if (st.timestamps_in_flight.lookup t).isSome then none
  else if st.cur_snap.IsCommitted t then none
  else some { st with timestamps_in_flight := (t, .reserved) :: st.timestamps_in_flight }

/-- Modelled from the spec: MvccManager::StartTransaction — one attempt at
the supplied clock reading (the C++ retries with fresh clock readings until
the insert succeeds). -/
def MvccManagerState.StartTransaction (st : MvccManagerState) (now : Nat) :
    MvccManagerState × MvccResult :=
  match initTransaction st now with
  | some st' => (st', .ok (some now))
  | none => (st, .illegal)

/-- Modelled from the spec: MvccManager::StartTransactionAtLatest — start at
the latest possible time; when the latest time cannot be obtained (modelled
as none), return Timestamp::kInvalidTimestamp and leave the state
unchanged. -/
def MvccManagerState.StartTransactionAtLatest (st : MvccManagerState)
    (latest : Option Nat) : MvccManagerState × Nat :=
  match latest with
  | none => (st, kInvalidTimestamp)
  | some now =>
    match initTransaction st now with
    | some st' => (st', now)
    | none => (st, kInvalidTimestamp)

/-- Modelled from the spec: MvccManager::StartTransactionAtTimestamp —
IllegalState (state unchanged) when the caller-supplied timestamp is at or
below the no-new-transactions watermark, in flight, or already committed;
otherwise insert it as RESERVED. -/
def MvccManagerState.StartTransactionAtTimestamp (st : MvccManagerState) (t : Nat) :
    MvccManagerState × MvccResult :=
  match initTransaction st t with
  | some st' => (st', .ok none)
  | none => (st, .illegal)

/-- Modelled from the spec: MvccManager::StartApplyingTransaction — the
timestamp must be in flight as RESERVED (else fatal); transition it to
APPLYING. -/
def MvccManagerState.StartApplyingTransaction (st : MvccManagerState) (t : Nat) :
    MvccManagerState × MvccResult :=
  match st.timestamps_in_flight.lookup t with
  | some .reserved =>
    ({ st with
       timestamps_in_flight :=
         st.timestamps_in_flight.map fun p => if p.1 = t then (p.1, .applying) else p },
     .ok none)
  | _ => (st, .fatal)

/-- Modelled from the spec: MvccManager::CommitTransaction — the timestamp
must be in flight as APPLYING (else fatal); remove it, record it committed
in the snapshot, and, when it was the earliest in-flight timestamp, adjust
the clean time. -/
def MvccManagerState.CommitTransaction (st : MvccManagerState) (t : Nat) :
    MvccManagerState × MvccResult :=
  match st.timestamps_in_flight.lookup t with
  | some .applying =>
    let st1 : MvccManagerState :=
      { st with
        timestamps_in_flight := removeInFlight st t
        cur_snap := st.cur_snap.AddCommittedTimestamp t }
    if t = earliestInFlight st then (st1.AdjustCleanTime, .ok none) else (st1, .ok none)
  | _ => (st, .fatal)

/-- Modelled from the spec: MvccManager::AbortTransaction — the timestamp
must be in flight as RESERVED (fatal when APPLYING or absent); remove it
without touching the snapshot, so the safe time never advances past an
aborted timestamp. -/
def MvccManagerState.AbortTransaction (st : MvccManagerState) (t : Nat) :
    MvccManagerState × MvccResult :=
  match st.timestamps_in_flight.lookup t with
  | some .reserved =>
    ({ st with timestamps_in_flight := removeInFlight st t }, .ok none)
  | _ => (st, .fatal)

/-- Modelled from the spec: MvccManager::OfflineCommitTransaction — as
commit, but never adjusts the clean time (extra_committed only). -/
def MvccManagerState.OfflineCommitTransaction (st : MvccManagerState) (t : Nat) :
    MvccManagerState × MvccResult :=
  match st.timestamps_in_flight.lookup t with
  | some .applying =>
    ({ st with
       timestamps_in_flight := removeInFlight st t
       cur_snap := st.cur_snap.AddCommittedTimestamp t },
     .ok none)
  | _ => (st, .fatal)

/-- Modelled from the spec: MvccManager::OfflineAdjustSafeTime — raise the
no-new-transactions watermark and adjust the clean time. -/
def MvccManagerState.OfflineAdjustSafeTime (st : MvccManagerState) (t : Nat) :
    MvccManagerState × MvccResult :=
  (MvccManagerState.AdjustCleanTime
    { st with
      no_new_transactions_at_or_before := max st.no_new_transactions_at_or_before t },
   .ok none)

/-- MvccManager::GetCleanTimestamp, from mvcc.h's contract: the current
snapshot's all_committed_before. -/
def MvccManagerState.GetCleanTimestamp (st : MvccManagerState) : Nat :=
  st.cur_snap.all_committed_before

/-- A manager operation together with the oracle data it consumes (the
injected clock reading for StartTransaction). -/
inductive MvccOp where
  | start (now : Nat) : MvccOp
  | startAt (t : Nat) : MvccOp
  | startApplying (t : Nat) : MvccOp
  | commit (t : Nat) : MvccOp
  | abort (t : Nat) : MvccOp
  | offlineCommit (t : Nat) : MvccOp
  | offlineAdjustSafeTime (t : Nat) : MvccOp
deriving DecidableEq

/-- One manager operation applied to the state. -/
def mvccStep (st : MvccManagerState) : MvccOp → MvccManagerState × MvccResult
  | .start now => st.StartTransaction now
  | .startAt t => st.StartTransactionAtTimestamp t
  | .startApplying t => st.StartApplyingTransaction t
  | .commit t => st.CommitTransaction t
  | .abort t => st.AbortTransaction t
  | .offlineCommit t => st.OfflineCommitTransaction t
  | .offlineAdjustSafeTime t => st.OfflineAdjustSafeTime t

/-- Run a sequence of manager operations. -/
def mvccRun (st : MvccManagerState) : List MvccOp → MvccManagerState
  | [] => st
  | op :: ops => mvccRun (mvccStep st op).1 ops

/-- The timestamps returned by the successful StartTransaction calls of a
run, in order. -/
def startReturns (st : MvccManagerState) : List MvccOp → List Nat
  | [] => []
  | op :: ops =>
    (match op, (mvccStep st op).2 with
     | .start _, .ok (some r) => [r]
     | _, _ => []) ++ startReturns (mvccStep st op).1 ops

/-- The clock readings consumed by the StartTransaction calls of an
operation sequence, in order. -/
def clockReads : List MvccOp → List Nat
  | [] => []
  | .start now :: ops => now :: clockReads ops
  | _ :: ops => clockReads ops

/-- The payload bytes of an encoded primitive value (everything after the
type byte). -/
def PrimitiveValue.payload : PrimitiveValue → List Nat
  | .vnull => []
  | .vfalse => []
  | .vtrue => []
  | .int64 v => toBE 8 (v + 2 ^ 63).toNat
  | .double b => toBE 8 (doubleKeyBits b)
  | .str s => escapeZeros s ++ [0, 0]
  | .timestamp t => toBE 8 (2 ^ 64 - 1 - t)

/-- Concrete example values used to exercise the claims on explicit
inputs. -/
def exDocKey : DocKey :=
  ⟨true, 4660, [.str [97], .str [98]], [.str [99], .int64 5]⟩

def exDocKey2 : DocKey :=
  ⟨false, 0, [], [.str [99], .int64 (-7)]⟩

def exSubDocKey : SubDocKey :=
  ⟨exDocKey, [.str [120]], some 7⟩

def exSubDocKey2 : SubDocKey :=
  ⟨exDocKey, [.str [120], .vtrue], some 9⟩

def exBadSubDocKey : SubDocKey :=
  ⟨⟨false, 0, [], []⟩, [.timestamp 5], none⟩

def exSnapshot : MvccSnapshot := ⟨5, 8, [6]⟩

def exCleanSnapshot : MvccSnapshot := ⟨5, 5, []⟩

def exManagerState : MvccManagerState := ⟨⟨0, 0, []⟩, [], 0⟩

def exAbortState : MvccManagerState :=
  ⟨⟨0, 0, []⟩, [(4, .reserved), (5, .applying)], 0⟩

def exOps : List MvccOp :=
  [.start 1, .startApplying 1, .commit 1, .start 2, .start 3, .abort 3]

end YbDocDb

namespace YbDocDb

theorem Ordering_lt_then (o : Ordering) : Ordering.lt.then o = .lt := rfl

theorem Ordering_gt_then (o : Ordering) : Ordering.gt.then o = .gt := rfl

theorem Ordering_eq_then (o : Ordering) : Ordering.eq.then o = o := rfl

theorem Ordering_then_eq (o : Ordering) : o.then .eq = o := by
  cases o <;> rfl

theorem Ordering_then_assoc (a b c : Ordering) :
    (a.then b).then c = a.then (b.then c) := by
  cases a <;> rfl

theorem natCmp_self (a : Nat) : natCmp a a = .eq := by
  simp [natCmp]

theorem natCmp_eq_iff {a b : Nat} : natCmp a b = .eq ↔ a = b := by
  unfold natCmp
  split_ifs with h1 h2 <;> simp_all <;> omega

theorem natCmp_lt_iff {a b : Nat} : natCmp a b = .lt ↔ a < b := by
  unfold natCmp
  split_ifs with h1 h2 <;> simp_all

theorem natCmp_gt_iff {a b : Nat} : natCmp a b = .gt ↔ b < a := by
  unfold natCmp
  split_ifs with h1 h2 <;> simp_all <;> omega

theorem intCmp_lt_iff {a b : Int} : intCmp a b = .lt ↔ a < b := by
  unfold intCmp
  split_ifs with h1 h2 <;> simp_all

theorem intCmp_eq_iff {a b : Int} : intCmp a b = .eq ↔ a = b := by
  unfold intCmp
  split_ifs with h1 h2 <;> simp_all <;> omega

theorem intCmp_gt_iff {a b : Int} : intCmp a b = .gt ↔ b < a := by
  unfold intCmp
  split_ifs with h1 h2 <;> simp_all <;> omega

/-- A quotient strictly below the other forces the strict inequality of the
values themselves. -/
theorem lt_of_div_lt_div {d m n : Nat} (hd : 0 < d) (h : m / d < n / d) : m < n := by
  have hmr : m % d < d := Nat.mod_lt _ hd
  calc m = d * (m / d) + m % d := (Nat.div_add_mod m d).symm
    _ < d * (m / d) + d := by omega
    _ = d * (m / d + 1) := (Nat.mul_succ d (m / d)).symm
    _ ≤ d * (n / d) := Nat.mul_le_mul_left d (Nat.succ_le_of_lt h)
    _ ≤ d * (n / d) + n % d := Nat.le_add_right _ _
    _ = n := Nat.div_add_mod n d

/-- Comparing naturals is lexicographic in their quotient and remainder by
any positive divisor. -/
theorem natCmp_div_mod (d : Nat) (hd : 0 < d) (m n : Nat) :
    natCmp m n = (natCmp (m / d) (n / d)).then (natCmp (m % d) (n % d)) := by
  rcases Nat.lt_trichotomy (m / d) (n / d) with h | h | h
  · rw [natCmp_lt_iff.mpr h, Ordering_lt_then,
      natCmp_lt_iff.mpr (lt_of_div_lt_div hd h)]
  · rw [h, natCmp_self, Ordering_eq_then]
    have e1 : d * (n / d) + m % d = m := by
      rw [← h]
      exact Nat.div_add_mod m d
    have e2 : d * (n / d) + n % d = n := Nat.div_add_mod n d
    set A := d * (n / d) with hA
    rcases Nat.lt_trichotomy (m % d) (n % d) with h2 | h2 | h2
    · rw [natCmp_lt_iff.mpr h2, natCmp_lt_iff.mpr (show m < n by omega)]
    · rw [h2, natCmp_self, natCmp_eq_iff.mpr (show m = n by omega)]
    · rw [natCmp_gt_iff.mpr h2, natCmp_gt_iff.mpr (show n < m by omega)]
  · rw [natCmp_gt_iff.mpr h, Ordering_gt_then,
      natCmp_gt_iff.mpr (lt_of_div_lt_div hd h)]

theorem cmpBytes_cons (a b : Nat) (as bs : List Nat) :
    cmpBytes (a :: as) (b :: bs) = (natCmp a b).then (cmpBytes as bs) := rfl

theorem cmpBytes_append_same (x a b : List Nat) :
    cmpBytes (x ++ a) (x ++ b) = cmpBytes a b := by
  induction x with
  | nil => rfl
  | cons c x ih => simp [cmpBytes_cons, ih, natCmp_self, Ordering_eq_then]

theorem cmpBytes_nil_left {e : List Nat} (h : e ≠ []) : cmpBytes [] e = .lt := by
  cases e with
  | nil => exact absurd rfl h
  | cons c tl => rfl

theorem cmpBytes_self_append {x e : List Nat} (h : e ≠ []) :
    cmpBytes x (x ++ e) = .lt := by
  have : cmpBytes (x ++ []) (x ++ e) = cmpBytes [] e := cmpBytes_append_same x [] e
  simpa [cmpBytes_nil_left h] using this

/-- Concatenation lemma for fixed-width big-endian payloads: the comparison
resolves within the payload exactly as the values compare. -/
theorem cmpBytes_toBE (k : Nat) {m n : Nat} (hm : m < 256 ^ k) (hn : n < 256 ^ k)
    (a b : List Nat) :
    cmpBytes (toBE k m ++ a) (toBE k n ++ b) = (natCmp m n).then (cmpBytes a b) := by
  induction k generalizing m n with
  | zero =>
    interval_cases m
    interval_cases n
    simp [toBE, natCmp_self, Ordering_eq_then]
  | succ k ih =>
    have hd : (0 : Nat) < 256 ^ k := Nat.pos_pow_of_pos _ (by omega)
    have hmod : m % 256 ^ k < 256 ^ k := Nat.mod_lt _ hd
    have hnod : n % 256 ^ k < 256 ^ k := Nat.mod_lt _ hd
    simp only [toBE, List.cons_append, cmpBytes_cons, ih hmod hnod]
    rw [← Ordering_then_assoc, ← natCmp_div_mod _ hd]

theorem unescapeZeros_nil : unescapeZeros [] = none := rfl

theorem unescapeZeros_zero_zero (r : List Nat) :
    unescapeZeros (0 :: 0 :: r) = some ([], r) := by
  simp [unescapeZeros]

theorem unescapeZeros_zero_one (r : List Nat) :
    unescapeZeros (0 :: 1 :: r) = (unescapeZeros r).map (fun p => (0 :: p.1, p.2)) := by
  simp [unescapeZeros]

theorem unescapeZeros_zero_bad {c : Nat} (h0 : c ≠ 0) (h1 : c ≠ 1) (r : List Nat) :
    unescapeZeros (0 :: c :: r) = none := by
  simp [unescapeZeros, h0, h1]

theorem unescapeZeros_cons_ne {c : Nat} (hc : c ≠ 0) {l : List Nat} (hl : l ≠ []) :
    unescapeZeros (c :: l) = (unescapeZeros l).map (fun p => (c :: p.1, p.2)) := by
  cases l with
  | nil => exact absurd rfl hl
  | cons a tl => simp [unescapeZeros, hc]

theorem unescapeZeros_escapeZeros (s rest : List Nat) :
    unescapeZeros (escapeZeros s ++ 0 :: 0 :: rest) = some (s, rest) := by
  induction s with
  | nil => simp [escapeZeros, unescapeZeros_zero_zero]
  | cons c s ih =>
    by_cases hc : c = 0
    · subst hc
      simp [escapeZeros, unescapeZeros_zero_one, ih]
    · rw [show escapeZeros (c :: s) = c :: escapeZeros s from by simp [escapeZeros, hc]]
      rw [List.cons_append, unescapeZeros_cons_ne hc (by simp), ih]
      simp

theorem unescapeZeros_length {l s r : List Nat}
    (h : unescapeZeros l = some (s, r)) : r.length < l.length := by
  have H : ∀ n (l s r : List Nat), l.length ≤ n →
      unescapeZeros l = some (s, r) → r.length < l.length := by
    intro n
    induction n with
    | zero =>
      intro l s r hlen h
      cases l with
      | nil => simp [unescapeZeros_nil] at h
      | cons c tl => simp at hlen
    | succ n ihn =>
      intro l s r hlen h
      match l with
      | [] => simp [unescapeZeros_nil] at h
      | [c] => simp [unescapeZeros] at h
      | c1 :: c2 :: rest =>
        by_cases h1 : c1 = 0
        · subst h1
          by_cases h2 : c2 = 0
          · subst h2
            rw [unescapeZeros_zero_zero] at h
            simp only [Option.some.injEq, Prod.mk.injEq] at h
            rw [← h.2]
            simp
            omega
          · by_cases h3 : c2 = 1
            · subst h3
              rw [unescapeZeros_zero_one] at h
              simp only [Option.map_eq_some'] at h
              obtain ⟨⟨s2, rr⟩, hrec, heq⟩ := h
              simp only [Prod.mk.injEq] at heq
              have := ihn rest s2 rr (by simp at hlen; omega) hrec
              rw [← heq.2]
              simp at this ⊢
              omega
            · rw [unescapeZeros_zero_bad h2 h3] at h
              exact absurd h (by simp)
        · rw [unescapeZeros_cons_ne h1 (by simp)] at h
          simp only [Option.map_eq_some'] at h
          obtain ⟨⟨s2, rr⟩, hrec, heq⟩ := h
          simp only [Prod.mk.injEq] at heq
          have := ihn (c2 :: rest) s2 rr (by simp at hlen ⊢; omega) hrec
          rw [← heq.2]
          simp at this ⊢
          omega
  exact H l.length l s r le_rfl h

theorem encode_eq_typeByte_payload (v : PrimitiveValue) :
    v.encode = v.typeByte :: v.payload := by
  cases v <;> rfl

theorem typeByte_gt_groupEnd (v : PrimitiveValue) : kGroupEnd < v.typeByte := by
  cases v <;> simp [PrimitiveValue.typeByte, kGroupEnd, kNull, kFalse, kTrue, kInt64,
    kDouble, kString, kTimestamp]

theorem typeByte_le_timestamp (v : PrimitiveValue) : v.typeByte ≤ kTimestamp := by
  cases v <;> simp [PrimitiveValue.typeByte, kNull, kFalse, kTrue, kInt64,
    kDouble, kString, kTimestamp]

theorem typeByte_lt_hash (v : PrimitiveValue) : v.typeByte < kUInt32Hash := by
  cases v <;> simp [PrimitiveValue.typeByte, kNull, kFalse, kTrue, kInt64,
    kDouble, kString, kTimestamp, kUInt32Hash]

theorem typeByte_lt_max (v : PrimitiveValue) : v.typeByte < kMaxByte := by
  cases v <;> simp [PrimitiveValue.typeByte, kNull, kFalse, kTrue, kInt64,
    kDouble, kString, kTimestamp, kMaxByte]

theorem doubleKeyBits_lt {b : Nat} (hb : b < 2 ^ 64) : doubleKeyBits b < 2 ^ 64 := by
  unfold doubleKeyBits
  split_ifs <;> omega

theorem doubleFromKeyBits_doubleKeyBits {b : Nat} (hb : b < 2 ^ 64) :
    doubleFromKeyBits (doubleKeyBits b) = b := by
  unfold doubleKeyBits doubleFromKeyBits
  split_ifs <;> omega

theorem pow256_eight : (256 : Nat) ^ 8 = 2 ^ 64 := by norm_num

theorem toBE_length (k n : Nat) : (toBE k n).length = k := by
  induction k generalizing n with
  | zero => rfl
  | succ k ih => simp [toBE, ih]

theorem readBE_toBE (k n : Nat) (hn : n < 256 ^ k) (rest : List Nat) :
    readBE k (toBE k n ++ rest) = some (n, rest) := by
  induction k generalizing n with
  | zero =>
    interval_cases n
    simp [toBE, readBE]
  | succ k ih =>
    have hmod : n % 256 ^ k < 256 ^ k := Nat.mod_lt _ (Nat.pos_pow_of_pos _ (by omega))
    simp only [toBE, readBE, List.cons_append, Option.map_eq_some']
    refine ⟨(n % 256 ^ k, rest), ih _ hmod, ?_⟩
    simp only [Prod.mk.injEq, and_true]
    rw [Nat.mul_comm]
    exact Nat.div_add_mod n (256 ^ k)

theorem readBE_length {k : Nat} {l rest : List Nat} {n : Nat}
    (h : readBE k l = some (n, rest)) : rest.length + k = l.length := by
  induction k generalizing l n rest with
  | zero =>
    simp only [readBE, Option.some.injEq, Prod.mk.injEq] at h
    simp [h.2]
  | succ k ih =>
    match l with
    | [] => simp [readBE] at h
    | c :: l' =>
      simp only [readBE, Option.map_eq_some'] at h
      obtain ⟨⟨m, r⟩, hread, heq⟩ := h
      have := ih hread
      simp only [Prod.mk.injEq] at heq
      rw [← heq.2]
      simp at this ⊢
      omega

theorem decodePrimitiveValue_encode (v : PrimitiveValue) (hv : v.validB = true)
    (rest : List Nat) : decodePrimitiveValue (v.encode ++ rest) = some (v, rest) := by
  cases v with
  | vnull =>
    simp [PrimitiveValue.encode, decodePrimitiveValue, kNull, kFalse, kTrue, kInt64,
      kDouble, kString, kTimestamp]
  | vfalse =>
    simp [PrimitiveValue.encode, decodePrimitiveValue, kNull, kFalse, kTrue, kInt64,
      kDouble, kString, kTimestamp]
  | vtrue =>
    simp [PrimitiveValue.encode, decodePrimitiveValue, kNull, kFalse, kTrue, kInt64,
      kDouble, kString, kTimestamp]
  | int64 x =>
    simp only [PrimitiveValue.validB, Bool.and_eq_true, decide_eq_true_eq] at hv
    have hb : (x + 2 ^ 63).toNat < 256 ^ 8 := by
      rw [pow256_eight]
      omega
    simp only [PrimitiveValue.encode, List.cons_append, decodePrimitiveValue, kNull,
      kFalse, kTrue, kInt64, kDouble, kString, kTimestamp]
    rw [if_neg (show ¬((50 : Nat) = 36) by decide),
      if_neg (show ¬((50 : Nat) = 37) by decide),
      if_neg (show ¬((50 : Nat) = 38) by decide), if_pos (by decide)]
    rw [readBE_toBE 8 _ hb rest]
    simp only [Option.map_some', Option.some.injEq, Prod.mk.injEq, and_true]
    have : (((x + 2 ^ 63).toNat : Int) - 2 ^ 63) = x := by omega
    rw [this]
  | double b =>
    simp only [PrimitiveValue.validB, decide_eq_true_eq] at hv
    have hb : doubleKeyBits b < 256 ^ 8 := by
      rw [pow256_eight]
      exact doubleKeyBits_lt hv
    simp only [PrimitiveValue.encode, List.cons_append, decodePrimitiveValue, kNull,
      kFalse, kTrue, kInt64, kDouble, kString, kTimestamp]
    rw [if_neg (show ¬((60 : Nat) = 36) by decide),
      if_neg (show ¬((60 : Nat) = 37) by decide),
      if_neg (show ¬((60 : Nat) = 38) by decide),
      if_neg (show ¬((60 : Nat) = 50) by decide), if_pos (by decide)]
    rw [readBE_toBE 8 _ hb rest]
    simp only [Option.map_some', Option.some.injEq, Prod.mk.injEq, and_true]
    rw [doubleFromKeyBits_doubleKeyBits hv]
  | str s =>
    simp only [PrimitiveValue.encode, List.cons_append, decodePrimitiveValue, kNull,
      kFalse, kTrue, kInt64, kDouble, kString, kTimestamp]
    rw [if_neg (show ¬((70 : Nat) = 36) by decide),
      if_neg (show ¬((70 : Nat) = 37) by decide),
      if_neg (show ¬((70 : Nat) = 38) by decide),
      if_neg (show ¬((70 : Nat) = 50) by decide),
      if_neg (show ¬((70 : Nat) = 60) by decide), if_pos (by decide)]
    rw [show (escapeZeros s ++ [0, 0]) ++ rest = escapeZeros s ++ 0 :: 0 :: rest from by
      simp]
    rw [unescapeZeros_escapeZeros]
    rfl
  | timestamp t =>
    simp only [PrimitiveValue.validB, decide_eq_true_eq] at hv
    have hb : 2 ^ 64 - 1 - t < 256 ^ 8 := by
      rw [pow256_eight]
      omega
    simp only [PrimitiveValue.encode, List.cons_append, decodePrimitiveValue, kNull,
      kFalse, kTrue, kInt64, kDouble, kString, kTimestamp]
    rw [if_neg (show ¬((80 : Nat) = 36) by decide),
      if_neg (show ¬((80 : Nat) = 37) by decide),
      if_neg (show ¬((80 : Nat) = 38) by decide),
      if_neg (show ¬((80 : Nat) = 50) by decide),
      if_neg (show ¬((80 : Nat) = 60) by decide),
      if_neg (show ¬((80 : Nat) = 70) by decide), if_pos (by decide)]
    rw [readBE_toBE 8 _ hb rest]
    simp only [Option.map_some', Option.some.injEq, Prod.mk.injEq, and_true]
    have : 2 ^ 64 - 1 - (2 ^ 64 - 1 - t) = t := by omega
    rw [this]

theorem decodePrimitiveValue_length {l r : List Nat} {v : PrimitiveValue}
    (h : decodePrimitiveValue l = some (v, r)) : r.length < l.length := by
  match l with
  | [] => simp [decodePrimitiveValue] at h
  | c :: rest =>
    simp only [decodePrimitiveValue] at h
    split_ifs at h
    · simp only [Option.some.injEq, Prod.mk.injEq] at h
      rw [← h.2]
      simp
    · simp only [Option.some.injEq, Prod.mk.injEq] at h
      rw [← h.2]
      simp
    · simp only [Option.some.injEq, Prod.mk.injEq] at h
      rw [← h.2]
      simp
    · simp only [Option.map_eq_some'] at h
      obtain ⟨⟨m, rr⟩, hread, heq⟩ := h
      simp only [Prod.mk.injEq] at heq
      have := readBE_length hread
      rw [← heq.2]
      simp at this ⊢
      omega
    · simp only [Option.map_eq_some'] at h
      obtain ⟨⟨m, rr⟩, hread, heq⟩ := h
      simp only [Prod.mk.injEq] at heq
      have := readBE_length hread
      rw [← heq.2]
      simp at this ⊢
      omega
    · simp only [Option.map_eq_some'] at h
      obtain ⟨⟨m, rr⟩, hread, heq⟩ := h
      simp only [Prod.mk.injEq] at heq
      have := unescapeZeros_length hread
      rw [← heq.2]
      simp at this ⊢
      omega
    · simp only [Option.map_eq_some'] at h
      obtain ⟨⟨m, rr⟩, hread, heq⟩ := h
      simp only [Prod.mk.injEq] at heq
      have := readBE_length hread
      rw [← heq.2]
      simp at this ⊢
      omega

/-- Biasing a signed 64-bit value into an unsigned one preserves the
comparison. -/
theorem natCmp_bias {x y : Int} (hx : -(2 : Int) ^ 63 ≤ x) (hy : -(2 : Int) ^ 63 ≤ y) :
    natCmp (x + 2 ^ 63).toNat (y + 2 ^ 63).toNat = intCmp x y := by
  rcases Int.lt_trichotomy x y with h | h | h
  · rw [intCmp_lt_iff.mpr h]
    exact natCmp_lt_iff.mpr (by omega)
  · subst h
    rw [natCmp_eq_iff.mpr rfl, intCmp_eq_iff.mpr rfl]
  · rw [intCmp_gt_iff.mpr h]
    exact natCmp_gt_iff.mpr (by omega)

/-- One's-complementing 64-bit values reverses the comparison (timestamps
sort newest first). -/
theorem natCmp_complement {t1 t2 : Nat} (h1 : t1 < 2 ^ 64) (h2 : t2 < 2 ^ 64) :
    natCmp (2 ^ 64 - 1 - t1) (2 ^ 64 - 1 - t2) = natCmp t2 t1 := by
  rcases Nat.lt_trichotomy t1 t2 with h | h | h
  · rw [natCmp_gt_iff.mpr h]
    exact natCmp_gt_iff.mpr (by omega)
  · subst h
    rw [natCmp_self, natCmp_self]
  · rw [natCmp_lt_iff.mpr h]
    exact natCmp_lt_iff.mpr (by omega)

/-- Concatenation lemma for zero-escaped terminated string payloads: the
comparison of the encodings resolves exactly as the comparison of the raw
strings. -/
theorem cmpBytes_escape_cat (s t a b : List Nat) :
    cmpBytes (escapeZeros s ++ 0 :: 0 :: a) (escapeZeros t ++ 0 :: 0 :: b)
      = (cmpBytes s t).then (cmpBytes a b) := by
  induction s generalizing t with
  | nil =>
    cases t with
    | nil =>
      simp [escapeZeros, cmpBytes_cons, natCmp_self, Ordering_eq_then, cmpBytes]
    | cons d t2 =>
      by_cases hd : d = 0
      · subst hd
        simp [escapeZeros, cmpBytes_cons, natCmp_self, Ordering_eq_then,
          natCmp_lt_iff.mpr (show (0 : Nat) < 1 by omega), Ordering_lt_then, cmpBytes]
      · have hdp : 0 < d := Nat.pos_of_ne_zero hd
        simp [escapeZeros, hd, cmpBytes_cons, natCmp_lt_iff.mpr hdp,
          Ordering_lt_then, cmpBytes]
  | cons c s2 ih =>
    cases t with
    | nil =>
      by_cases hc : c = 0
      · subst hc
        simp [escapeZeros, cmpBytes_cons, natCmp_self, Ordering_eq_then,
          natCmp_gt_iff.mpr (show (0 : Nat) < 1 by omega), Ordering_gt_then, cmpBytes]
      · have hcp : 0 < c := Nat.pos_of_ne_zero hc
        simp [escapeZeros, hc, cmpBytes_cons, natCmp_gt_iff.mpr hcp,
          Ordering_gt_then, cmpBytes]
    | cons d t2 =>
      by_cases hc : c = 0 <;> by_cases hd : d = 0
      · subst hc
        subst hd
        simp [escapeZeros, cmpBytes_cons, natCmp_self, Ordering_eq_then, ih]
      · subst hc
        have hdp : 0 < d := Nat.pos_of_ne_zero hd
        simp [escapeZeros, hd, cmpBytes_cons, natCmp_lt_iff.mpr hdp, Ordering_lt_then]
      · subst hd
        have hcp : 0 < c := Nat.pos_of_ne_zero hc
        simp [escapeZeros, hc, cmpBytes_cons, natCmp_gt_iff.mpr hcp, Ordering_gt_then]
      · simp [escapeZeros, hc, hd, cmpBytes_cons, ih, Ordering_then_assoc]

/-- Concatenation lemma for whole encoded primitive values: the byte
comparison resolves exactly as the structural comparison, before comparing
the remainders. -/
theorem cmpBytes_primitive_cat (v w : PrimitiveValue) (hv : v.validB = true)
    (hw : w.validB = true) (a b : List Nat) :
    cmpBytes (v.encode ++ a) (w.encode ++ b) = (v.CompareTo w).then (cmpBytes a b) := by
  rw [encode_eq_typeByte_payload, encode_eq_typeByte_payload]
  simp only [List.cons_append, cmpBytes_cons]
  simp only [PrimitiveValue.CompareTo, Ordering_then_assoc]
  cases htb : natCmp v.typeByte w.typeByte with
  | lt => rw [Ordering_lt_then, Ordering_lt_then]
  | gt => rw [Ordering_gt_then, Ordering_gt_then]
  | eq =>
    rw [Ordering_eq_then, Ordering_eq_then]
    have heq : v.typeByte = w.typeByte := natCmp_eq_iff.mp htb
    cases v <;> cases w <;>
      simp only [PrimitiveValue.typeByte, kNull, kFalse, kTrue, kInt64, kDouble,
        kString, kTimestamp] at heq <;>
      try omega
    case vnull.vnull =>
      simp [PrimitiveValue.payload, primPayloadCmp, Ordering_eq_then]
    case vfalse.vfalse =>
      simp [PrimitiveValue.payload, primPayloadCmp, Ordering_eq_then]
    case vtrue.vtrue =>
      simp [PrimitiveValue.payload, primPayloadCmp, Ordering_eq_then]
    case int64.int64 x y =>
      simp only [PrimitiveValue.validB, Bool.and_eq_true, decide_eq_true_eq] at hv hw
      have hbx : (x + 2 ^ 63).toNat < 256 ^ 8 := by
        rw [pow256_eight]
        omega
      have hby : (y + 2 ^ 63).toNat < 256 ^ 8 := by
        rw [pow256_eight]
        omega
      simp only [PrimitiveValue.payload, primPayloadCmp]
      rw [cmpBytes_toBE 8 hbx hby, natCmp_bias hv.1 hw.1]
    case double.double x y =>
      simp only [PrimitiveValue.validB, decide_eq_true_eq] at hv hw
      have hbx : doubleKeyBits x < 256 ^ 8 := by
        rw [pow256_eight]
        exact doubleKeyBits_lt hv
      have hby : doubleKeyBits y < 256 ^ 8 := by
        rw [pow256_eight]
        exact doubleKeyBits_lt hw
      simp only [PrimitiveValue.payload, primPayloadCmp]
      rw [cmpBytes_toBE 8 hbx hby]
    case str.str x y =>
      simp only [PrimitiveValue.payload, primPayloadCmp]
      rw [show (escapeZeros x ++ [0, 0]) ++ a = escapeZeros x ++ 0 :: 0 :: a from by simp]
      rw [show (escapeZeros y ++ [0, 0]) ++ b = escapeZeros y ++ 0 :: 0 :: b from by simp]
      exact cmpBytes_escape_cat x y a b
    case timestamp.timestamp x y =>
      simp only [PrimitiveValue.validB, decide_eq_true_eq] at hv hw
      have hbx : 2 ^ 64 - 1 - x < 256 ^ 8 := by
        rw [pow256_eight]
        omega
      have hby : 2 ^ 64 - 1 - y < 256 ^ 8 := by
        rw [pow256_eight]
        omega
      simp only [PrimitiveValue.payload, primPayloadCmp]
      rw [cmpBytes_toBE 8 hbx hby, natCmp_complement (by omega) (by omega)]

theorem encodePVList_append (g1 g2 : List PrimitiveValue) :
    encodePVList (g1 ++ g2) = encodePVList g1 ++ encodePVList g2 := by
  induction g1 with
  | nil => simp [encodePVList]
  | cons v g ih => simp [encodePVList, ih]

theorem encode_ne_nil (v : PrimitiveValue) : v.encode ≠ [] := by
  rw [encode_eq_typeByte_payload]
  simp

theorem encodePVList_cons_shape (v : PrimitiveValue) (g : List PrimitiveValue)
    (rest : List Nat) :
    encodePVList (v :: g) ++ rest
      = v.typeByte :: (v.payload ++ (encodePVList g ++ rest)) := by
  rw [encodePVList, encode_eq_typeByte_payload]
  simp

theorem encodeGroup_append_shape (g : List PrimitiveValue) (rest : List Nat) :
    encodeGroup g ++ rest = encodePVList g ++ kGroupEnd :: rest := by
  simp [encodeGroup]

/-- The first byte of an encoded group (with anything appended) is either
GroupEnd or a component type byte; in particular it lies strictly below the
Uint32Hash byte. -/
theorem encodeGroup_head (g : List PrimitiveValue) (rest : List Nat) :
    ∃ c tl, encodeGroup g ++ rest = c :: tl ∧ kGroupEnd ≤ c ∧ c ≤ kTimestamp := by
  cases g with
  | nil =>
    refine ⟨kGroupEnd, rest, ?_, le_rfl, by decide⟩
    simp [encodeGroup, encodePVList]
  | cons v g =>
    refine ⟨v.typeByte, v.payload ++ (encodePVList g ++ kGroupEnd :: rest), ?_, ?_, ?_⟩
    · rw [encodeGroup_append_shape, encodePVList_cons_shape]
    · exact le_of_lt (typeByte_gt_groupEnd v)
    · exact typeByte_le_timestamp v

/-- Concatenation lemma for GroupEnd-terminated groups: the byte comparison
resolves exactly as the structural list comparison, before comparing the
remainders. -/
theorem cmpBytes_group_cat (xs ys : List PrimitiveValue)
    (hx : ∀ v ∈ xs, v.validB = true) (hy : ∀ v ∈ ys, v.validB = true)
    (a b : List Nat) :
    cmpBytes (encodeGroup xs ++ a) (encodeGroup ys ++ b)
      = (cmpPVList xs ys).then (cmpBytes a b) := by
  induction xs generalizing ys a b with
  | nil =>
    cases ys with
    | nil =>
      rw [encodeGroup_append_shape, encodeGroup_append_shape]
      simp [encodePVList, cmpBytes_cons, natCmp_self, Ordering_eq_then, cmpPVList]
    | cons w ys =>
      rw [encodeGroup_append_shape, encodeGroup_append_shape, encodePVList_cons_shape]
      rw [show encodePVList [] ++ kGroupEnd :: a = kGroupEnd :: a from by
        simp [encodePVList]]
      rw [cmpBytes_cons, natCmp_lt_iff.mpr (typeByte_gt_groupEnd w), Ordering_lt_then]
      simp [cmpPVList, Ordering_lt_then]
  | cons v xs ih =>
    cases ys with
    | nil =>
      rw [encodeGroup_append_shape, encodeGroup_append_shape, encodePVList_cons_shape]
      rw [show encodePVList [] ++ kGroupEnd :: b = kGroupEnd :: b from by
        simp [encodePVList]]
      rw [cmpBytes_cons, natCmp_gt_iff.mpr (typeByte_gt_groupEnd v), Ordering_gt_then]
      simp [cmpPVList, Ordering_gt_then]
    | cons w ys =>
      have h1 : encodeGroup (v :: xs) ++ a = v.encode ++ (encodeGroup xs ++ a) := by
        simp [encodeGroup, encodePVList]
      have h2 : encodeGroup (w :: ys) ++ b = w.encode ++ (encodeGroup ys ++ b) := by
        simp [encodeGroup, encodePVList]
      rw [h1, h2,
        cmpBytes_primitive_cat v w (hx v (by simp)) (hy w (by simp)),
        ih ys (fun u hu => hx u (by simp [hu])) (fun u hu => hy u (by simp [hu]))]
      simp [cmpPVList, Ordering_then_assoc]

theorem consumeGroupFuel_encode (g : List PrimitiveValue)
    (hg : ∀ v ∈ g, v.validB = true) (rest : List Nat) (fuel : Nat)
    (hf : (encodePVList g).length + 1 ≤ fuel) :
    consumeGroupFuel fuel (encodePVList g ++ kGroupEnd :: rest) = some (g, rest) := by
  induction g generalizing fuel with
  | nil =>
    obtain ⟨f, rfl⟩ : ∃ f, fuel = f + 1 := ⟨fuel - 1, by omega⟩
    rw [show encodePVList [] ++ kGroupEnd :: rest = kGroupEnd :: rest from by
      simp [encodePVList]]
    simp [consumeGroupFuel]
  | cons v g ih =>
    obtain ⟨f, rfl⟩ : ∃ f, fuel = f + 1 := ⟨fuel - 1, by omega⟩
    rw [encodePVList_cons_shape]
    simp only [consumeGroupFuel]
    rw [if_neg (show ¬(v.typeByte = kGroupEnd) from by
      have := typeByte_gt_groupEnd v
      omega)]
    have hdec : decodePrimitiveValue
        (v.typeByte :: (v.payload ++ (encodePVList g ++ kGroupEnd :: rest)))
        = some (v, encodePVList g ++ kGroupEnd :: rest) := by
      rw [← List.cons_append, ← encode_eq_typeByte_payload]
      exact decodePrimitiveValue_encode v (hg v (by simp)) _
    rw [hdec]
    have hlen : v.payload.length + 1 = v.encode.length := by
      rw [encode_eq_typeByte_payload]
      simp
    have hf2 : (encodePVList g).length + 1 ≤ f := by
      rw [encodePVList] at hf
      simp only [List.length_append] at hf
      omega
    simp only [Option.bind_eq_bind, Option.some_bind, ih (fun u hu => hg u (by simp [hu])) f hf2,
      Option.map_some']

theorem ConsumePrimitiveValuesFromKey_encode (g : List PrimitiveValue)
    (hg : ∀ v ∈ g, v.validB = true) (rest : List Nat) :
    ConsumePrimitiveValuesFromKey (encodePVList g ++ kGroupEnd :: rest)
      = some (g, rest) := by
  apply consumeGroupFuel_encode g hg rest
  simp

/-- Unpacked form of the DocKey representation invariants. -/
theorem DocKey_validB_spec {d : DocKey} (h : d.validB = true) :
    (d.hash_present = false → d.hash = 0 ∧ d.hashed_group = [])
      ∧ d.hash < 2 ^ 32
      ∧ (∀ v ∈ d.hashed_group, v.validB = true)
      ∧ (∀ v ∈ d.range_group, v.validB = true) := by
  simp only [DocKey.validB, Bool.and_eq_true, Bool.or_eq_true, decide_eq_true_eq,
    List.all_eq_true] at h
  obtain ⟨⟨⟨h1, h2⟩, h3⟩, h4⟩ := h
  refine ⟨?_, h2, fun v hv => h3 v hv, fun v hv => h4 v hv⟩
  intro hf
  rcases h1 with h1 | h1
  · rw [hf] at h1
    exact absurd h1 (by simp)
  · exact h1

theorem pow256_four : (256 : Nat) ^ 4 = 2 ^ 32 := by norm_num

theorem DocKey_DecodeFrom_encode (d : DocKey) (hd : d.validB = true)
    (rest : List Nat) : DocKey.DecodeFrom (d.Encode ++ rest) = some (d, rest) := by
  obtain ⟨hnp, hhash, hhg, hrg⟩ := DocKey_validB_spec hd
  obtain ⟨hp, h, hg, rg⟩ := d
  cases hp with
  | false =>
    obtain ⟨h0, hg0⟩ := hnp rfl
    simp only at h0 hg0
    subst h0
    subst hg0
    have hshape : DocKey.Encode ⟨false, 0, [], rg⟩ ++ rest
        = encodeGroup rg ++ rest := by
      simp [DocKey.Encode]
    rw [hshape]
    obtain ⟨c, tl, heq, hc1, hc2⟩ := encodeGroup_head rg rest
    rw [heq]
    simp only [DocKey.DecodeFrom]
    rw [if_neg (show ¬(c = kUInt32Hash) from by
      simp only [kUInt32Hash, kTimestamp] at hc2 ⊢
      omega)]
    rw [← heq, encodeGroup_append_shape,
      ConsumePrimitiveValuesFromKey_encode rg (by simpa using hrg) rest]
    simp
  | true =>
    have hshape : DocKey.Encode ⟨true, h, hg, rg⟩ ++ rest
        = kUInt32Hash :: (toBE 4 h
            ++ (encodePVList hg ++ kGroupEnd
              :: (encodePVList rg ++ kGroupEnd :: rest))) := by
      simp [DocKey.Encode, encodeGroup]
    rw [hshape]
    simp only [DocKey.DecodeFrom, if_pos rfl]
    rw [readBE_toBE 4 h (by rw [pow256_four]; exact hhash) _]
    simp only [Option.bind_eq_bind, Option.some_bind]
    rw [ConsumePrimitiveValuesFromKey_encode hg (by simpa using hhg) _]
    simp only [Option.some_bind]
    rw [ConsumePrimitiveValuesFromKey_encode rg (by simpa using hrg) rest]
    simp

theorem DocKey_FullyDecodeFrom_encode (d : DocKey) (hd : d.validB = true) :
    DocKey.FullyDecodeFrom d.Encode = some d := by
  unfold DocKey.FullyDecodeFrom
  rw [show d.Encode = d.Encode ++ [] from by simp, DocKey_DecodeFrom_encode d hd []]
  simp

/-- Concatenation lemma for whole encoded DocKeys: the byte comparison
resolves exactly as the structural DocKey comparison, before comparing the
remainders. -/
theorem cmpBytes_DocKey_cat (d e : DocKey) (hd : d.validB = true)
    (he : e.validB = true) (a b : List Nat) :
    cmpBytes (d.Encode ++ a) (e.Encode ++ b)
      = (d.CompareTo e).then (cmpBytes a b) := by
  obtain ⟨hnp1, hhash1, hhg1, hrg1⟩ := DocKey_validB_spec hd
  obtain ⟨hnp2, hhash2, hhg2, hrg2⟩ := DocKey_validB_spec he
  obtain ⟨hp1, h1, hg1, rg1⟩ := d
  obtain ⟨hp2, h2, hg2, rg2⟩ := e
  cases hp1 <;> cases hp2
  · obtain ⟨e1, e2⟩ := hnp1 rfl
    obtain ⟨e3, e4⟩ := hnp2 rfl
    simp only at e1 e2 e3 e4
    subst e1
    subst e2
    subst e3
    subst e4
    rw [show DocKey.Encode ⟨false, 0, [], rg1⟩ ++ a = encodeGroup rg1 ++ a from by
      simp [DocKey.Encode]]
    rw [show DocKey.Encode ⟨false, 0, [], rg2⟩ ++ b = encodeGroup rg2 ++ b from by
      simp [DocKey.Encode]]
    rw [cmpBytes_group_cat rg1 rg2 (by simpa using hrg1) (by simpa using hrg2)]
    simp [DocKey.CompareTo, cmpBool, natCmp_self, cmpPVList, Ordering_eq_then]
  · obtain ⟨e1, e2⟩ := hnp1 rfl
    simp only at e1 e2
    subst e1
    subst e2
    rw [show DocKey.Encode ⟨false, 0, [], rg1⟩ ++ a = encodeGroup rg1 ++ a from by
      simp [DocKey.Encode]]
    obtain ⟨c, tl, heq, hc1, hc2⟩ := encodeGroup_head rg1 a
    rw [heq]
    rw [show DocKey.Encode ⟨true, h2, hg2, rg2⟩ ++ b
        = kUInt32Hash :: (toBE 4 h2 ++ (encodeGroup hg2 ++ (encodeGroup rg2 ++ b)))
      from by simp [DocKey.Encode]]
    rw [cmpBytes_cons, natCmp_lt_iff.mpr (show c < kUInt32Hash from by
      simp only [kUInt32Hash, kTimestamp] at hc2 ⊢
      omega), Ordering_lt_then]
    simp [DocKey.CompareTo, cmpBool, Ordering_lt_then]
  · obtain ⟨e3, e4⟩ := hnp2 rfl
    simp only at e3 e4
    subst e3
    subst e4
    rw [show DocKey.Encode ⟨false, 0, [], rg2⟩ ++ b = encodeGroup rg2 ++ b from by
      simp [DocKey.Encode]]
    obtain ⟨c, tl, heq, hc1, hc2⟩ := encodeGroup_head rg2 b
    rw [heq]
    rw [show DocKey.Encode ⟨true, h1, hg1, rg1⟩ ++ a
        = kUInt32Hash :: (toBE 4 h1 ++ (encodeGroup hg1 ++ (encodeGroup rg1 ++ a)))
      from by simp [DocKey.Encode]]
    rw [cmpBytes_cons, natCmp_gt_iff.mpr (show c < kUInt32Hash from by
      simp only [kUInt32Hash, kTimestamp] at hc2 ⊢
      omega), Ordering_gt_then]
    simp [DocKey.CompareTo, cmpBool, Ordering_gt_then]
  · rw [show DocKey.Encode ⟨true, h1, hg1, rg1⟩ ++ a
        = kUInt32Hash :: (toBE 4 h1 ++ (encodeGroup hg1 ++ (encodeGroup rg1 ++ a)))
      from by simp [DocKey.Encode]]
    rw [show DocKey.Encode ⟨true, h2, hg2, rg2⟩ ++ b
        = kUInt32Hash :: (toBE 4 h2 ++ (encodeGroup hg2 ++ (encodeGroup rg2 ++ b)))
      from by simp [DocKey.Encode]]
    rw [cmpBytes_cons, natCmp_self, Ordering_eq_then]
    rw [cmpBytes_toBE 4 (by rw [pow256_four]; exact hhash1) (by rw [pow256_four]; exact hhash2)]
    rw [cmpBytes_group_cat hg1 hg2 (by simpa using hhg1) (by simpa using hhg2)]
    rw [cmpBytes_group_cat rg1 rg2 (by simpa using hrg1) (by simpa using hrg2)]
    simp [DocKey.CompareTo, cmpBool, Ordering_eq_then, Ordering_then_assoc]

/-- Unpacked form of the SubDocKey representation invariants. -/
theorem SubDocKey_validB_spec {s : SubDocKey} (h : s.validB = true) :
    s.doc_key.validB = true
      ∧ (∀ v ∈ s.subkeys, v.validB = true)
      ∧ (∀ t, s.timestamp = some t → t < 2 ^ 64 - 1) := by
  simp only [SubDocKey.validB, Bool.and_eq_true, List.all_eq_true] at h
  refine ⟨h.1.1, fun v hv => h.1.2 v hv, ?_⟩
  intro t ht
  have h2 := h.2
  rw [ht] at h2
  simpa using h2

theorem noTimestampSubkeys_typeByte {s : SubDocKey} (h : s.noTimestampSubkeys = true) :
    ∀ v ∈ s.subkeys, v.typeByte ≠ kTimestamp := by
  simp only [SubDocKey.noTimestampSubkeys, List.all_eq_true] at h
  intro v hv
  have hb := h v hv
  cases v with
  | timestamp t => simp at hb
  | vnull => simp [PrimitiveValue.typeByte, kNull, kTimestamp]
  | vfalse => simp [PrimitiveValue.typeByte, kFalse, kTimestamp]
  | vtrue => simp [PrimitiveValue.typeByte, kTrue, kTimestamp]
  | int64 x => simp [PrimitiveValue.typeByte, kInt64, kTimestamp]
  | double x => simp [PrimitiveValue.typeByte, kDouble, kTimestamp]
  | str x => simp [PrimitiveValue.typeByte, kString, kTimestamp]

theorem decodeSubKeysFuel_encode (sks : List PrimitiveValue) (ts : Option Nat)
    (hsk : ∀ v ∈ sks, v.validB = true)
    (hns : ∀ v ∈ sks, v.typeByte ≠ kTimestamp)
    (hts : ∀ t, ts = some t → t < 2 ^ 64) (fuel : Nat)
    (hf : (encodePVList sks ++ encodeTimestampPart ts).length + 1 ≤ fuel) :
    decodeSubKeysFuel fuel ts.isSome (encodePVList sks ++ encodeTimestampPart ts)
      = some (sks, ts, []) := by
  induction sks generalizing fuel with
  | nil =>
    obtain ⟨f, rfl⟩ : ∃ f, fuel = f + 1 := ⟨fuel - 1, by omega⟩
    cases ts with
    | none =>
      simp [encodePVList, encodeTimestampPart, decodeSubKeysFuel]
    | some t =>
      have ht : t < 2 ^ 64 := hts t rfl
      rw [show encodePVList [] ++ encodeTimestampPart (some t)
          = kTimestamp :: toBE 8 (2 ^ 64 - 1 - t) from by
        simp [encodePVList, encodeTimestampPart]]
      simp only [decodeSubKeysFuel, if_pos rfl]
      rw [show toBE 8 (2 ^ 64 - 1 - t) = toBE 8 (2 ^ 64 - 1 - t) ++ [] from by simp]
      rw [readBE_toBE 8 _ (by rw [pow256_eight]; omega) []]
      rw [if_pos trivial]
      simp only [Option.map_some']
      have he : 2 ^ 64 - 1 - (2 ^ 64 - 1 - t) = t := by omega
      rw [he]
  | cons v sks ih =>
    obtain ⟨f, rfl⟩ : ∃ f, fuel = f + 1 := ⟨fuel - 1, by omega⟩
    rw [encodePVList_cons_shape]
    simp only [decodeSubKeysFuel]
    rw [if_neg (hns v (by simp))]
    have hdec : decodePrimitiveValue
        (v.typeByte :: (v.payload ++ (encodePVList sks ++ encodeTimestampPart ts)))
        = some (v, encodePVList sks ++ encodeTimestampPart ts) := by
      rw [← List.cons_append, ← encode_eq_typeByte_payload]
      exact decodePrimitiveValue_encode v (hsk v (by simp)) _
    rw [hdec]
    have hlen : v.payload.length + 1 = v.encode.length := by
      rw [encode_eq_typeByte_payload]
      simp
    have hf2 : (encodePVList sks ++ encodeTimestampPart ts).length + 1 ≤ f := by
      rw [encodePVList] at hf
      simp only [List.length_append] at hf ⊢
      omega
    simp only [Option.bind_eq_bind, Option.some_bind,
      ih (fun u hu => hsk u (by simp [hu])) (fun u hu => hns u (by simp [hu])) f hf2,
      Option.map_some']

theorem decodeSubKeys_encode (sks : List PrimitiveValue) (ts : Option Nat)
    (hsk : ∀ v ∈ sks, v.validB = true)
    (hns : ∀ v ∈ sks, v.typeByte ≠ kTimestamp)
    (hts : ∀ t, ts = some t → t < 2 ^ 64) :
    decodeSubKeys ts.isSome (encodePVList sks ++ encodeTimestampPart ts)
      = some (sks, ts, []) := by
  apply decodeSubKeysFuel_encode sks ts hsk hns hts
  simp

theorem SubDocKey_FullyDecodeFrom_encode (s : SubDocKey) (hs : s.validB = true)
    (hns : s.noTimestampSubkeys = true) :
    SubDocKey.FullyDecodeFrom (s.Encode true) s.has_timestamp = some s := by
  obtain ⟨hdk, hsk, hts⟩ := SubDocKey_validB_spec hs
  have hns2 := noTimestampSubkeys_typeByte hns
  obtain ⟨d, sks, ts⟩ := s
  simp only at hdk hsk hts hns2
  have hshape : SubDocKey.Encode ⟨d, sks, ts⟩ true
      = d.Encode ++ (encodePVList sks ++ encodeTimestampPart ts) := by
    simp [SubDocKey.Encode]
  rw [hshape]
  unfold SubDocKey.FullyDecodeFrom
  rw [DocKey_DecodeFrom_encode d hdk _]
  simp only [Option.bind_eq_bind, Option.some_bind]
  have hht : SubDocKey.has_timestamp ⟨d, sks, ts⟩ = ts.isSome := rfl
  rw [hht, decodeSubKeys_encode sks ts hsk hns2
    (fun t ht => lt_trans (hts t ht) (by omega))]
  simp

theorem IsCommittedFallback_iff (s : MvccSnapshot) (t : Nat) :
    s.IsCommittedFallback t = true ↔ t ∈ s.committed_timestamps := by
  simp [MvccSnapshot.IsCommittedFallback, List.contains, List.elem_eq_mem]

theorem AddCommittedTimestamp_acb (s : MvccSnapshot) (t : Nat) :
    (s.AddCommittedTimestamp t).all_committed_before = s.all_committed_before := by
  unfold MvccSnapshot.AddCommittedTimestamp
  split_ifs <;> rfl

theorem AdjustCleanTime_acb_le (st : MvccManagerState) :
    st.cur_snap.all_committed_before
      ≤ st.AdjustCleanTime.cur_snap.all_committed_before := by
  unfold MvccManagerState.AdjustCleanTime
  dsimp only
  split_ifs with h
  · exact le_of_lt h
  · exact le_rfl

theorem initTransaction_snap {st st' : MvccManagerState} {t : Nat}
    (h : initTransaction st t = some st') : st'.cur_snap = st.cur_snap := by
  unfold initTransaction at h
  split_ifs at h
  simp at h
  rw [← h]

theorem mvccStep_acb_le (st : MvccManagerState) (op : MvccOp) :
    st.GetCleanTimestamp ≤ ((mvccStep st op).1).GetCleanTimestamp := by
  unfold MvccManagerState.GetCleanTimestamp
  cases op with
  | start now =>
    simp only [mvccStep, MvccManagerState.StartTransaction]
    cases h : initTransaction st now with
    | none => exact le_rfl
    | some st' =>
      simp only
      rw [initTransaction_snap h]
  | startAt t =>
    simp only [mvccStep, MvccManagerState.StartTransactionAtTimestamp]
    cases h : initTransaction st t with
    | none => exact le_rfl
    | some st' =>
      simp only
      rw [initTransaction_snap h]
  | startApplying t =>
    simp only [mvccStep, MvccManagerState.StartApplyingTransaction]
    cases h : st.timestamps_in_flight.lookup t with
    | none => exact le_rfl
    | some s =>
      cases s with
      | reserved => exact le_rfl
      | applying => exact le_rfl
  | commit t =>
    simp only [mvccStep, MvccManagerState.CommitTransaction]
    cases h : st.timestamps_in_flight.lookup t with
    | none => exact le_rfl
    | some s =>
      cases s with
      | reserved => exact le_rfl
      | applying =>
        simp only
        split_ifs with he
        · refine le_trans ?_ (AdjustCleanTime_acb_le _)
          simp only [AddCommittedTimestamp_acb]
          exact le_rfl
        · simp only [AddCommittedTimestamp_acb]
          exact le_rfl
  | abort t =>
    simp only [mvccStep, MvccManagerState.AbortTransaction]
    cases h : st.timestamps_in_flight.lookup t with
    | none => exact le_rfl
    | some s =>
      cases s with
      | reserved => exact le_rfl
      | applying => exact le_rfl
  | offlineCommit t =>
    simp only [mvccStep, MvccManagerState.OfflineCommitTransaction]
    cases h : st.timestamps_in_flight.lookup t with
    | none => exact le_rfl
    | some s =>
      cases s with
      | reserved => exact le_rfl
      | applying =>
        simp only [AddCommittedTimestamp_acb]
        exact le_rfl
  | offlineAdjustSafeTime t =>
    simp only [mvccStep, MvccManagerState.OfflineAdjustSafeTime]
    exact AdjustCleanTime_acb_le
      { st with
        no_new_transactions_at_or_before := max st.no_new_transactions_at_or_before t }

theorem mvccRun_acb_le (st : MvccManagerState) (ops : List MvccOp) :
    st.GetCleanTimestamp ≤ (mvccRun st ops).GetCleanTimestamp := by
  induction ops generalizing st with
  | nil => exact le_rfl
  | cons op ops ih =>
    exact le_trans (mvccStep_acb_le st op) (ih _)

theorem mvccRun_append (st : MvccManagerState) (l1 l2 : List MvccOp) :
    mvccRun st (l1 ++ l2) = mvccRun (mvccRun st l1) l2 := by
  induction l1 generalizing st with
  | nil => rfl
  | cons op l1 ih => simp [mvccRun, ih]

theorem startReturns_sublist (st : MvccManagerState) (ops : List MvccOp) :
    (startReturns st ops).Sublist (clockReads ops) := by
  induction ops generalizing st with
  | nil => simp [startReturns, clockReads]
  | cons op ops ih =>
    cases op with
    | start now =>
      simp only [startReturns, clockReads]
      cases hr : (mvccStep st (.start now)).2 with
      | ok o =>
        cases o with
        | some r =>
          have hrn : r = now := by
            simp only [mvccStep, MvccManagerState.StartTransaction] at hr
            cases h : initTransaction st now with
            | some st' =>
              rw [h] at hr
              simp at hr
              exact hr.symm
            | none =>
              rw [h] at hr
              simp at hr
          rw [hrn]
          simpa using List.Sublist.cons₂ now (ih _)
        | none => simpa using List.Sublist.cons now (ih _)
      | illegal => simpa using List.Sublist.cons now (ih _)
      | fatal => simpa using List.Sublist.cons now (ih _)
    | startAt t => simpa [startReturns, clockReads] using ih _
    | startApplying t => simpa [startReturns, clockReads] using ih _
    | commit t => simpa [startReturns, clockReads] using ih _
    | abort t => simpa [startReturns, clockReads] using ih _
    | offlineCommit t => simpa [startReturns, clockReads] using ih _
    | offlineAdjustSafeTime t => simpa [startReturns, clockReads] using ih _

theorem lookup_filter_ne (l : List (Nat × TxnState)) (t : Nat) :
    (l.filter fun p => decide (p.1 ≠ t)).lookup t = none := by
  induction l with
  | nil => rfl
  | cons p l ih =>
    obtain ⟨k, v⟩ := p
    rw [List.filter_cons]
    by_cases hp : k = t
    · rw [if_neg (by simp [hp])]
      exact ih
    · rw [if_pos (by simp [hp])]
      rw [List.lookup_cons]
      rw [show (t == k) = false from by simp [Ne.symm hp]]
      simpa using ih

/-- Claim C1, counterexample: the round-trip fails as stated on a SubDocKey
whose single subkey is a timestamp-typed primitive value — the decoder takes
its Timestamp type byte for the terminating timestamp, so decoding the
encoding yields a different SubDocKey. -/
theorem C1_counterexample :
    exBadSubDocKey.validB = true
      ∧ SubDocKey.FullyDecodeFrom (exBadSubDocKey.Encode true)
          exBadSubDocKey.has_timestamp ≠ some exBadSubDocKey := by
  constructor
  · decide
  · decide

/-- Claim C1 (amended): for every DocKey d, FullyDecodeFrom applied to
Encode(d) succeeds and yields d; and for every SubDocKey s none of whose
subkeys is a timestamp-typed primitive value,
FullyDecodeFrom(Encode(s), require_timestamp = s.has_timestamp) succeeds and
yields s. -/
theorem C1_codec_round_trip (d : DocKey) (hd : d.validB = true)
    (s : SubDocKey) (hs : s.validB = true) (hns : s.noTimestampSubkeys = true) :
    DocKey.FullyDecodeFrom d.Encode = some d
      ∧ SubDocKey.FullyDecodeFrom (s.Encode true) s.has_timestamp = some s :=
  ⟨DocKey_FullyDecodeFrom_encode d hd, SubDocKey_FullyDecodeFrom_encode s hs hns⟩

theorem C1_codec_round_trip_witness :
    exDocKey.validB = true ∧ exSubDocKey.validB = true
      ∧ exSubDocKey.noTimestampSubkeys = true
      ∧ (DocKey.FullyDecodeFrom exDocKey.Encode = some exDocKey
          ∧ SubDocKey.FullyDecodeFrom (exSubDocKey.Encode true)
              exSubDocKey.has_timestamp = some exSubDocKey) :=
  ⟨by decide, by decide, by decide,
    C1_codec_round_trip exDocKey (by decide) exSubDocKey (by decide) (by decide)⟩

/-- Claim C2: for any two DocKeys, CompareTo equals the lexicographic byte
comparison of their encodings (the structural comparison is order-equivalent
to the byte order); for any two SubDocKeys, CompareTo is the byte comparison
of their encodings. -/
theorem C2_ordering_law (a b : DocKey) (ha : a.validB = true)
    (hb : b.validB = true) (s1 s2 : SubDocKey) :
    a.CompareTo b = cmpBytes a.Encode b.Encode
      ∧ s1.CompareTo s2 = cmpBytes (s1.Encode true) (s2.Encode true) := by
  constructor
  · have h := cmpBytes_DocKey_cat a b ha hb [] []
    simpa [Ordering_then_eq, cmpBytes] using h.symm
  · rfl

theorem C2_ordering_law_witness :
    exDocKey.validB = true ∧ exDocKey2.validB = true
      ∧ (exDocKey.CompareTo exDocKey2 = cmpBytes exDocKey.Encode exDocKey2.Encode
          ∧ exSubDocKey.CompareTo exSubDocKey2
              = cmpBytes (exSubDocKey.Encode true) (exSubDocKey2.Encode true)) :=
  ⟨by decide, by decide,
    C2_ordering_law exDocKey exDocKey2 (by decide) (by decide) exSubDocKey exSubDocKey2⟩

/-- Claim C3: under the snapshot invariant, IsCommitted (the two inlined
watermark comparisons plus the fallback) returns true exactly when the
timestamp is below all_committed_before or in the extra committed set. -/
theorem C3_IsCommitted_iff (s : MvccSnapshot) (hinv : s.invariant) (t : Nat) :
    s.IsCommitted t = true
      ↔ (t < s.all_committed_before ∨ t ∈ s.committed_timestamps) := by
  unfold MvccSnapshot.IsCommitted
  split_ifs with h1 h2
  · simp [h1]
  · constructor
    · intro hh
      exact absurd hh (by simp)
    · rintro (hlt | hmem)
      · exact absurd hlt h1
      · exact absurd h2 (by have := hinv t hmem; omega)
  · rw [IsCommittedFallback_iff]
    constructor
    · exact fun hm => Or.inr hm
    · rintro (hlt | hm)
      · exact absurd hlt h1
      · exact hm

theorem C3_IsCommitted_iff_witness :
    exSnapshot.invariant
      ∧ (exSnapshot.IsCommitted 6 = true
          ↔ (6 < exSnapshot.all_committed_before
              ∨ 6 ∈ exSnapshot.committed_timestamps)) :=
  ⟨by unfold MvccSnapshot.invariant; decide,
    C3_IsCommitted_iff exSnapshot (by unfold MvccSnapshot.invariant; decide) 6⟩

/-- Claim C4: across any operation sequence whose clock readings increase,
successful StartTransaction calls return strictly increasing timestamps, and
GetCleanTimestamp never decreases from any prefix of the run to the whole
run. -/
theorem C4_mvcc_monotonicity (st : MvccManagerState) (ops : List MvccOp)
    (hclock : (clockReads ops).Pairwise (· < ·)) :
    (startReturns st ops).Pairwise (· < ·)
      ∧ ∀ pre suf, ops = pre ++ suf →
          (mvccRun st pre).GetCleanTimestamp ≤ (mvccRun st ops).GetCleanTimestamp := by
  constructor
  · exact hclock.sublist (startReturns_sublist st ops)
  · intro pre suf hsplit
    rw [hsplit, mvccRun_append]
    exact mvccRun_acb_le _ suf

theorem C4_mvcc_monotonicity_witness :
    (clockReads exOps).Pairwise (· < ·)
      ∧ ((startReturns exManagerState exOps).Pairwise (· < ·)
          ∧ ∀ pre suf, exOps = pre ++ suf →
              (mvccRun exManagerState pre).GetCleanTimestamp
                ≤ (mvccRun exManagerState exOps).GetCleanTimestamp) :=
  ⟨by decide, C4_mvcc_monotonicity exManagerState exOps (by decide)⟩

/-- Claim C5: encoding a SubDocKey without its timestamp is strictly below
the encoding of any extension (extra subkeys or an appended timestamp), and
every such extension is strictly below AdvanceOutOfSubDoc. -/
theorem C5_prefix_law (s s2 : SubDocKey) (hdk : s2.doc_key = s.doc_key)
    (hpre : s.subkeys <+: s2.subkeys)
    (hext : s.subkeys ≠ s2.subkeys ∨ s2.has_timestamp = true) :
    cmpBytes (s.Encode false) (s2.Encode true) = .lt
      ∧ cmpBytes (s2.Encode true) s.AdvanceOutOfSubDoc = .lt := by
  obtain ⟨suf, hsuf⟩ := hpre
  have hshape : s2.Encode true
      = s.Encode false ++ (encodePVList suf ++ encodeTimestampPart s2.timestamp) := by
    unfold SubDocKey.Encode
    rw [hdk, ← hsuf, encodePVList_append]
    simp [List.append_assoc]
  constructor
  · rw [hshape]
    apply cmpBytes_self_append
    rcases hext with hne | hts
    · have hsufne : suf ≠ [] := by
        intro h0
        exact hne (by rw [← hsuf, h0, List.append_nil])
      cases suf with
      | nil => exact absurd rfl hsufne
      | cons v suf2 =>
        intro h0
        rw [encodePVList] at h0
        simp only [List.append_assoc, List.append_eq_nil] at h0
        exact encode_ne_nil v h0.1
    · obtain ⟨t, ht⟩ := Option.isSome_iff_exists.mp hts
      rw [ht]
      intro h0
      simp only [encodeTimestampPart, List.append_eq_nil] at h0
      exact absurd h0.2 (by simp)
  · rw [hshape, SubDocKey.AdvanceOutOfSubDoc, cmpBytes_append_same]
    cases suf with
    | nil =>
      rw [show encodePVList [] ++ encodeTimestampPart s2.timestamp
          = encodeTimestampPart s2.timestamp from by simp [encodePVList]]
      cases hts2 : s2.timestamp with
      | none => simp [encodeTimestampPart, cmpBytes]
      | some t =>
        simp only [encodeTimestampPart]
        rw [show [kMaxByte] = kMaxByte :: ([] : List Nat) from rfl, cmpBytes_cons,
          natCmp_lt_iff.mpr (show kTimestamp < kMaxByte by decide), Ordering_lt_then]
    | cons v suf2 =>
      rw [encodePVList_cons_shape]
      rw [show [kMaxByte] = kMaxByte :: ([] : List Nat) from rfl, cmpBytes_cons,
        natCmp_lt_iff.mpr (typeByte_lt_max v), Ordering_lt_then]

theorem C5_prefix_law_witness :
    exSubDocKey2.doc_key = exSubDocKey.doc_key
      ∧ exSubDocKey.subkeys <+: exSubDocKey2.subkeys
      ∧ exSubDocKey.subkeys ≠ exSubDocKey2.subkeys
      ∧ (cmpBytes (exSubDocKey.Encode false) (exSubDocKey2.Encode true) = .lt
          ∧ cmpBytes (exSubDocKey2.Encode true) exSubDocKey.AdvanceOutOfSubDoc = .lt) :=
  ⟨by decide, by decide, by decide,
    C5_prefix_law exSubDocKey exSubDocKey2 (by decide) (by decide)
      (Or.inl (by decide))⟩

/-- Claim C6: on every encoded SubDocKey, GetEncodedDocKeyPrefixSize returns
exactly the length of the underlying DocKey's encoding, that encoding is a
byte prefix of the key, and KeyMayMatch / CreateFilter delegate to the
built-in bloom filter on exactly that DocKey prefix. -/
theorem C6_bloom_prefix_law (s : SubDocKey) (hd : s.doc_key.validB = true) :
    DocDbAwareFilterPolicy.GetEncodedDocKeyPrefixSize (s.Encode true)
        = some (s.doc_key.Encode).length
      ∧ s.doc_key.Encode <+: s.Encode true
      ∧ (∀ (bf : List Nat → List Nat → Bool) (f : List Nat),
          DocDbAwareFilterPolicy.KeyMayMatch bf (s.Encode true) f
            = bf s.doc_key.Encode f)
      ∧ (∀ cf : List (List Nat) → List Nat,
          DocDbAwareFilterPolicy.CreateFilter cf [s.Encode true]
            = cf [s.doc_key.Encode]) := by
  have hshape : s.Encode true
      = s.doc_key.Encode
          ++ (encodePVList s.subkeys ++ encodeTimestampPart s.timestamp) := by
    unfold SubDocKey.Encode
    simp [List.append_assoc]
  have hsize : DocDbAwareFilterPolicy.GetEncodedDocKeyPrefixSize (s.Encode true)
      = some (s.doc_key.Encode).length := by
    rw [hshape]
    unfold DocDbAwareFilterPolicy.GetEncodedDocKeyPrefixSize
    rw [DocKey_DecodeFrom_encode _ hd _]
    simp [List.length_append]
  have htake : docKeyPrefix (s.Encode true) = s.doc_key.Encode := by
    unfold docKeyPrefix
    rw [hsize, hshape]
    exact List.take_left _ _
  refine ⟨hsize, ⟨_, hshape.symm⟩, fun bf f => ?_, fun cf => ?_⟩
  · unfold DocDbAwareFilterPolicy.KeyMayMatch
    rw [htake]
  · unfold DocDbAwareFilterPolicy.CreateFilter
    rw [List.map_singleton, htake]

theorem C6_bloom_prefix_law_witness :
    exSubDocKey.doc_key.validB = true
      ∧ (DocDbAwareFilterPolicy.GetEncodedDocKeyPrefixSize (exSubDocKey.Encode true)
            = some (exSubDocKey.doc_key.Encode).length
          ∧ exSubDocKey.doc_key.Encode <+: exSubDocKey.Encode true
          ∧ (∀ (bf : List Nat → List Nat → Bool) (f : List Nat),
              DocDbAwareFilterPolicy.KeyMayMatch bf (exSubDocKey.Encode true) f
                = bf exSubDocKey.doc_key.Encode f)
          ∧ (∀ cf : List (List Nat) → List Nat,
              DocDbAwareFilterPolicy.CreateFilter cf [exSubDocKey.Encode true]
                = cf [exSubDocKey.doc_key.Encode])) :=
  ⟨by decide, C6_bloom_prefix_law exSubDocKey (by decide)⟩

/-- Claim C7: aborting a RESERVED in-flight timestamp removes it from the
in-flight map and leaves the snapshot — in particular
all_committed_before — unchanged (the safe time never advances past an
aborted timestamp); aborting an APPLYING timestamp is fatal and leaves the
state unchanged. -/
theorem C7_abort_frame (st : MvccManagerState) (t : Nat) :
    (st.timestamps_in_flight.lookup t = some .reserved →
      st.AbortTransaction t
          = ({ st with timestamps_in_flight := removeInFlight st t }, .ok none)
        ∧ (st.AbortTransaction t).1.timestamps_in_flight.lookup t = none
        ∧ (st.AbortTransaction t).1.cur_snap = st.cur_snap)
    ∧ (st.timestamps_in_flight.lookup t = some .applying →
        st.AbortTransaction t = (st, .fatal)) := by
  constructor
  · intro h
    have he : st.AbortTransaction t
        = ({ st with timestamps_in_flight := removeInFlight st t }, .ok none) := by
      unfold MvccManagerState.AbortTransaction
      rw [h]
    refine ⟨he, ?_, ?_⟩
    · rw [he]
      exact lookup_filter_ne _ t
    · rw [he]
  · intro h
    unfold MvccManagerState.AbortTransaction
    rw [h]

theorem C7_abort_frame_witness :
    exAbortState.timestamps_in_flight.lookup 4 = some .reserved
      ∧ (exAbortState.AbortTransaction 4
            = ({ exAbortState with timestamps_in_flight := removeInFlight exAbortState 4 },
               .ok none)
          ∧ (exAbortState.AbortTransaction 4).1.timestamps_in_flight.lookup 4 = none
          ∧ (exAbortState.AbortTransaction 4).1.cur_snap = exAbortState.cur_snap)
      ∧ (exAbortState.timestamps_in_flight.lookup 5 = some .applying
          ∧ exAbortState.AbortTransaction 5 = (exAbortState, .fatal)) :=
  ⟨by decide, (C7_abort_frame exAbortState 4).1 (by decide),
    by decide, (C7_abort_frame exAbortState 5).2 (by decide)⟩

/-- Claim C8: StartTransactionAtTimestamp returns IllegalState with the
state unchanged exactly when the timestamp is at or below the
no-new-transactions watermark, already in flight, or already committed;
otherwise it succeeds and inserts the timestamp as RESERVED. -/
theorem C8_start_at_timestamp (st : MvccManagerState) (t : Nat) :
    (((st.StartTransactionAtTimestamp t).2 = .illegal
        ∧ (st.StartTransactionAtTimestamp t).1 = st)
      ↔ (t ≤ st.no_new_transactions_at_or_before
          ∨ (st.timestamps_in_flight.lookup t).isSome = true
          ∨ st.cur_snap.IsCommitted t = true))
    ∧ ((¬(t ≤ st.no_new_transactions_at_or_before
          ∨ (st.timestamps_in_flight.lookup t).isSome = true
          ∨ st.cur_snap.IsCommitted t = true)) →
        st.StartTransactionAtTimestamp t
          = ({ st with
                timestamps_in_flight := (t, .reserved) :: st.timestamps_in_flight },
             .ok none)) := by
  unfold MvccManagerState.StartTransactionAtTimestamp initTransaction
  by_cases h1 : t ≤ st.no_new_transactions_at_or_before
  · rw [if_pos h1]
    constructor
    · simp [h1]
    · intro hn
      exact absurd (Or.inl h1) hn
  · rw [if_neg h1]
    by_cases h2 : (st.timestamps_in_flight.lookup t).isSome = true
    · rw [if_pos h2]
      constructor
      · simp [h2]
      · intro hn
        exact absurd (Or.inr (Or.inl h2)) hn
    · rw [if_neg h2]
      by_cases h3 : st.cur_snap.IsCommitted t = true
      · rw [if_pos h3]
        constructor
        · simp [h3]
        · intro hn
          exact absurd (Or.inr (Or.inr h3)) hn
      · rw [if_neg h3]
        constructor
        · simp [h1, h2, h3]
        · intro hn
          rfl

theorem C8_start_at_timestamp_witness :
    (4 ≤ exAbortState.no_new_transactions_at_or_before
        ∨ (exAbortState.timestamps_in_flight.lookup 4).isSome = true
        ∨ exAbortState.cur_snap.IsCommitted 4 = true)
      ∧ ((exAbortState.StartTransactionAtTimestamp 4).2 = .illegal
          ∧ (exAbortState.StartTransactionAtTimestamp 4).1 = exAbortState)
      ∧ exAbortState.StartTransactionAtTimestamp 100
          = ({ exAbortState with
                timestamps_in_flight :=
                  (100, .reserved) :: exAbortState.timestamps_in_flight },
             .ok none) :=
  ⟨by decide, (C8_start_at_timestamp exAbortState 4).1.mpr (by decide),
    (C8_start_at_timestamp exAbortState 100).2 (by decide)⟩

/-- Claim C9: on a clean snapshot, LastCommittedTimestamp returns
all_committed_before − 1 (in unsigned 64-bit arithmetic; for a positive
watermark this is the plain predecessor). -/
theorem C9_last_committed_clean (s : MvccSnapshot) (hc : s.is_clean = true)
    (hb : s.all_committed_before < 2 ^ 64) :
    s.LastCommittedTimestamp = (s.all_committed_before + (2 ^ 64 - 1)) % 2 ^ 64
      ∧ (0 < s.all_committed_before →
          s.LastCommittedTimestamp = s.all_committed_before - 1) := by
  have hfalse : ¬(s.is_clean = false ∧ s.committed_timestamps.length = 1
      ∧ s.committed_timestamps.head? = some s.all_committed_before) := by
    rintro ⟨hf, _, _⟩
    rw [hc] at hf
    exact absurd hf (by simp)
  unfold MvccSnapshot.LastCommittedTimestamp
  rw [if_neg hfalse]
  refine ⟨rfl, fun hpos => ?_⟩
  have h1 : s.all_committed_before + (2 ^ 64 - 1)
      = (s.all_committed_before - 1) + 1 * 2 ^ 64 := by omega
  rw [h1, Nat.add_mul_mod_self_right, Nat.mod_eq_of_lt (by omega)]

theorem C9_last_committed_clean_witness :
    exCleanSnapshot.is_clean = true
      ∧ exCleanSnapshot.all_committed_before < 2 ^ 64
      ∧ (exCleanSnapshot.LastCommittedTimestamp
            = (exCleanSnapshot.all_committed_before + (2 ^ 64 - 1)) % 2 ^ 64
          ∧ (0 < exCleanSnapshot.all_committed_before →
              exCleanSnapshot.LastCommittedTimestamp
                = exCleanSnapshot.all_committed_before - 1)) :=
  ⟨by decide, by decide,
    C9_last_committed_clean exCleanSnapshot (by decide) (by decide)⟩

/-- Claim C10: when the latest time cannot be obtained,
StartTransactionAtLatest returns the sentinel Timestamp::kInvalidTimestamp
and inserts nothing into the in-flight set (the state is unchanged). -/
theorem C10_start_at_latest_invalid (st : MvccManagerState) :
    st.StartTransactionAtLatest none = (st, kInvalidTimestamp)
      ∧ (st.StartTransactionAtLatest none).1.timestamps_in_flight
          = st.timestamps_in_flight :=
  ⟨rfl, rfl⟩

end YbDocDb
